import Mathlib

/-!
Verification of the python-inliner core (src/main.rs) against its
natural-language specification.

The Rust source is shallowly embedded: text is modelled as `List Char`
(byte offsets in the Rust code become character offsets; all offsets are
used consistently within one string, so the order structure is
preserved), paths are lists of components, the abstract storage provider
(`FileSystem` trait) is a structure of functions, and the fallible /
panicking operations (`?`, `.unwrap()`, slice indexing) are modelled in
an `Except` monad with an explicit `panicked` outcome.  The recursive
inliner is given an explicit fuel parameter; termination of the Rust
code corresponds to a proved fuel bound.
-/

namespace PyInliner

/-- Text content, modelled as a list of characters. -/
abbrev Chars := List Char

/-- Conversion from a string literal to the character-list model. -/
def str (s : String) : Chars := s.data

/-- Whitespace test mirroring Rust's `char::is_whitespace` on the ASCII
range (space, tab, line feed, carriage return, vertical tab, form feed). -/
def isWs (c : Char) : Bool :=
  c = ' ' || c = '\t' || c = '\n' || c = '\r' || c = '\x0b' || c = '\x0c'

/-- Rust `str::trim_end` on the character-list model. -/
def trimEndC (l : Chars) : Chars := (l.reverse.dropWhile isWs).reverse

/-- Rust `str::trim_start` on the character-list model. -/
def trimStartC (l : Chars) : Chars := l.dropWhile isWs

/-- Rust `str::trim` on the character-list model. -/
def trimC (l : Chars) : Chars := trimEndC (trimStartC l)

/-- Split a character list at every `'\n'`; the separators are dropped and
every piece is kept, so the result has one more piece than there are
newlines. -/
def splitOnNl : Chars → List Chars
  | [] => [[]]
  | c :: cs =>
    if c = '\n' then [] :: splitOnNl cs
    else
      match splitOnNl cs with
      | [] => [[c]]
      | p :: ps => (c :: p) :: ps

/-- Strip one trailing carriage return, as Rust's `lines()` does for a
line that was terminated by `"\r\n"`. -/
def stripCr (l : Chars) : Chars :=
  if l.getLast? = some '\r' then l.dropLast else l

/-- Rust `str::lines()`: split at `'\n'`, drop the trailing empty piece
produced by a final newline, and strip a trailing `'\r'` from every
newline-terminated piece (a final piece not terminated by `'\n'` keeps
its trailing `'\r'`, matching Rust). -/
def rustLines (content : Chars) : List Chars :=
  if content = [] then []
  else
    match (splitOnNl content).getLast? with
    | none => []
    | some l =>
      if l = [] then (splitOnNl content).dropLast.map stripCr
      else (splitOnNl content).dropLast.map stripCr ++ [l]

/-- Re-indentation loop from `inline_imports` (src/main.rs lines 344-353
and 380-388): every line of the recursively inlined content is emitted
with the import statement's indentation prefix, except truly empty lines
which are emitted as a bare newline. -/
def reindent (indent : Chars) (content : Chars) : Chars :=
  (rustLines content).foldl
    (fun acc line =>
      if line.isEmpty then acc ++ ['\n']
      else acc ++ indent ++ line ++ ['\n'])
    []

section LinesLemmas

theorem splitOnNl_ne_nil (l : Chars) : splitOnNl l ≠ [] := by
  induction l with
  | nil => simp [splitOnNl]
  | cons c cs ih =>
    simp only [splitOnNl]
    split
    · simp
    · cases h : splitOnNl cs with
      | nil => simp
      | cons p ps => simp

theorem mem_splitOnNl_no_nl (l : Chars) :
    ∀ p ∈ splitOnNl l, '\n' ∉ p := by
  induction l with
  | nil => intro p hp; simp [splitOnNl] at hp; simp [hp]
  | cons c cs ih =>
    intro p hp
    simp only [splitOnNl] at hp
    by_cases hc : c = '\n'
    · simp [hc] at hp
      rcases hp with h | h
      · simp [h]
      · exact ih p h
    · simp [hc] at hp
      rcases hcs : splitOnNl cs with _ | ⟨q, qs⟩
      · exact absurd hcs (splitOnNl_ne_nil cs)
      · rw [hcs] at hp
        simp at hp
        rcases hp with h | h
        · subst h
          intro hmem
          rcases List.mem_cons.mp hmem with h | h
          · exact hc h.symm
          · exact ih q (by rw [hcs]; exact List.mem_cons_self q qs) h
        · exact ih p (by rw [hcs]; exact List.mem_cons_of_mem q h)

theorem splitOnNl_append_no_nl (l r : Chars) (hl : '\n' ∉ l) :
    splitOnNl (l ++ '\n' :: r) = l :: splitOnNl r := by
  induction l with
  | nil => simp [splitOnNl]
  | cons c cs ih =>
    have hc : c ≠ '\n' := fun h => hl (h ▸ List.mem_cons_self c cs)
    have hcs : '\n' ∉ cs := fun h => hl (List.mem_cons_of_mem c h)
    simp only [List.cons_append, splitOnNl, hc, if_neg (fun h => hc h), List.append_eq]
    rw [ih hcs]
    simp

theorem stripCr_no_nl {p : Chars} (h : '\n' ∉ p) : '\n' ∉ stripCr p := by
  unfold stripCr
  split
  · exact fun hm => h (List.dropLast_subset _ hm)
  · exact h

theorem mem_of_getLast?_eq {α : Type} {l : List α} {a : α}
    (h : l.getLast? = some a) : a ∈ l := by
  induction l with
  | nil => simp at h
  | cons x xs ih =>
    cases xs with
    | nil => simp [List.getLast?] at h; simp [h]
    | cons y ys =>
      rw [List.getLast?_cons_cons] at h
      exact List.mem_cons_of_mem x (ih h)

theorem mem_rustLines_no_nl (c : Chars) : ∀ l ∈ rustLines c, '\n' ∉ l := by
  intro l hl
  unfold rustLines at hl
  split at hl
  · simp at hl
  · rcases hgl : (splitOnNl c).getLast? with _ | last
    · rw [hgl] at hl; simp at hl
    · rw [hgl] at hl
      dsimp only at hl
      have hlast : last ∈ splitOnNl c := mem_of_getLast?_eq hgl
      split at hl
      · rcases List.mem_map.mp hl with ⟨p, hp, hpl⟩
        exact hpl ▸ stripCr_no_nl (mem_splitOnNl_no_nl c p (List.dropLast_subset _ hp))
      · rcases List.mem_append.mp hl with h | h
        · rcases List.mem_map.mp h with ⟨p, hp, hpl⟩
          exact hpl ▸ stripCr_no_nl (mem_splitOnNl_no_nl c p (List.dropLast_subset _ hp))
        · simp at h
          subst h
          exact mem_splitOnNl_no_nl c l hlast

theorem foldl_emit (ind : Chars) (ls : List Chars) (acc : Chars) :
    ls.foldl (fun a l => if l.isEmpty then a ++ ['\n'] else a ++ ind ++ l ++ ['\n']) acc
      = acc ++ (ls.map (fun l => (if l.isEmpty then [] else ind ++ l) ++ ['\n'])).flatten := by
  induction ls generalizing acc with
  | nil => simp
  | cons l ls ih =>
    simp only [List.foldl_cons, List.map_cons, List.flatten_cons]
    rw [ih]
    by_cases h : l.isEmpty <;> simp [h, List.append_assoc]

theorem splitOnNl_flatten (ms : List Chars) (h : ∀ m ∈ ms, '\n' ∉ m) :
    splitOnNl ((ms.map (fun m => m ++ ['\n'])).flatten) = ms ++ [[]] := by
  induction ms with
  | nil => simp [splitOnNl]
  | cons m ms ih =>
    have hm : '\n' ∉ m := h m (List.mem_cons_self m ms)
    have hms : ∀ x ∈ ms, '\n' ∉ x := fun x hx => h x (List.mem_cons_of_mem m hx)
    simp only [List.map_cons, List.flatten_cons, List.append_assoc, List.singleton_append]
    rw [splitOnNl_append_no_nl m _ hm, ih hms]
    rfl

end LinesLemmas

/-- C3 (amended): re-indenting the recursively inlined content at an
indented import site (`n` spaces) transforms each line of the content
as follows: a truly empty line stays empty, and every nonempty line
(including whitespace-only lines) is prefixed by exactly the `n` spaces;
the output is exactly those transformed lines, each terminated by a
newline. -/
theorem C3_reindent_per_line (n : Nat) (c : Chars) :
    splitOnNl (reindent (List.replicate n ' ') c)
      = (rustLines c).map
          (fun l => if l.isEmpty then [] else List.replicate n ' ' ++ l) ++ [[]] := by
  unfold reindent
  rw [foldl_emit]
  have key : ∀ m ∈ (rustLines c).map
      (fun l => if l.isEmpty then [] else List.replicate n ' ' ++ l), '\n' ∉ m := by
    intro m hm
    rcases List.mem_map.mp hm with ⟨l, hl, hml⟩
    have hln : '\n' ∉ l := mem_rustLines_no_nl c l hl
    subst hml
    split
    · simp
    · intro hmem
      rcases List.mem_append.mp hmem with h | h
      · exact absurd (List.eq_of_mem_replicate h) (by decide)
      · exact hln h
  have := splitOnNl_flatten _ key
  rw [List.nil_append, ← this]
  congr 1
  rw [List.map_map]
  rfl

/-- Paths are modelled as lists of components, matching Rust `PathBuf`
equality and hashing (which compare the component sequence). -/
abbrev MPath := List Chars

/-- Split a character list at every `'/'` (for Rust `Path::join` of a
slash-separated relative path). -/
def splitOnSlash : Chars → List Chars
  | [] => [[]]
  | c :: cs =>
    if c = '/' then [] :: splitOnSlash cs
    else
      match splitOnSlash cs with
      | [] => [[c]]
      | p :: ps => (c :: p) :: ps

/-- Rust `Path::join` with a relative slash-separated suffix: append the
suffix's components (joining the empty string leaves the component
sequence unchanged). -/
def pjoin (p : MPath) (s : Chars) : MPath :=
  if s = [] then p else p ++ splitOnSlash s

/-- Rust `Path::parent` for a path with at least one component. -/
def parentp (p : MPath) : MPath := p.dropLast

/-- Rust `str::replace(".", "/")` for a module reference. -/
def dotsToSlashes (s : Chars) : Chars := s.map (fun c => if c = '.' then '/' else c)

/-- Rust `str::trim_start_matches('.')`. -/
def stripLeadingDots (s : Chars) : Chars := s.dropWhile (· = '.')

/-- Rust `Path::with_extension("py")` on a single component: drop the
extension (the part after the last `'.'`, where a leading `'.'` alone
does not begin an extension) and append `".py"`. -/
def setExtPy (comp : Chars) : Chars :=
  let rev := comp.reverse
  let pre := rev.takeWhile (· ≠ '.')
  let stem :=
    if pre.length = rev.length then comp
    else
      let stemRev := rev.drop (pre.length + 1)
      if stemRev = [] then comp else stemRev.reverse
  stem ++ str ".py"

/-- Rust `PathBuf::with_extension("py")`: rewrite the final component;
a path with no component is left unchanged. -/
def withExtPy (p : MPath) : MPath :=
  match p.getLast? with
  | none => p
  | some c => p.dropLast ++ [setExtPy c]

/-- The `__init__.py` candidate for a package directory
(`module_path.join("__init__.py")` in `inline_imports`). -/
def initPath (p : MPath) : MPath := p ++ [str "__init__.py"]

/-- Indentation characters as in the regex character class `[ \t]`. -/
def isIndentChar (c : Char) : Bool := c = ' ' || c = '\t'

/-- Drop a literal prefix, returning the remainder on success. -/
def dropLit : Chars → Chars → Option Chars
  | [], rest => some rest
  | _ :: _, [] => none
  | c :: cs, d :: ds => if d = c then dropLit cs ds else none

/-- Match the guard regex `([ \t]*)if\s+TYPE_CHECKING\s*:` at the start
of the given text.  `\s` matches newlines, so the match may span several
lines (e.g. `"if\nTYPE_CHECKING:"` matches).  Every character class in
the pattern is disjoint from the literal that follows it, so the
maximal-run reading below is exactly the regex engine's behaviour, with
no backtracking possible.  Returns the captured indentation length and
the offset just after the `':'` (the regex match end). -/
def guardMatch (line : Chars) : Option (Nat × Nat) :=
  let ind := line.takeWhile isIndentChar
  match dropLit (str "if") (line.drop ind.length) with
  | none => none
  | some r2 =>
    let wsct := (r2.takeWhile isWs).length
    if wsct = 0 then none
    else
      match dropLit (str "TYPE_CHECKING") (r2.drop wsct) with
      | none => none
      | some r3 =>
        let ws2 := (r3.takeWhile isWs).length
        match r3.drop ws2 with
        | ':' :: rest => some (ind.length, line.length - rest.length)
        | _ => none

/-- Is an offset a valid position for the `(?m)^` anchor: the start of
the content, or the position just after a `'\n'`. -/
def anchorAt (content : Chars) : Nat → Bool
  | 0 => true
  | q + 1 => decide (content[q]? = some '\n')

/-- The non-overlapping match iteration of `captures_iter` for the
anchored guard regex: walk the content keeping the absolute offset and
whether the current position is an anchor; at an anchor try the pattern,
and on a hit record `(start, indent_len, match_end)` and resume right
after the match (never an anchor — the previous character is the
matched `':'`).  Fuel is one unit per character position. -/
def guardScanGo : Nat → Nat → Bool → Chars → List (Nat × Nat × Nat)
  | 0, _, _, _ => []
  | _ + 1, _, _, [] => []
  | fuel + 1, pos, false, c :: rest =>
    guardScanGo fuel (pos + 1) (decide (c = '\n')) rest
  | fuel + 1, pos, true, c :: rest =>
    match guardMatch (c :: rest) with
    | some io =>
      (pos, io.1, pos + io.2)
        :: guardScanGo fuel (pos + io.2) false ((c :: rest).drop io.2)
    | none => guardScanGo fuel (pos + 1) (decide (c = '\n')) rest

/-- All matches of the guard regex in the content, as produced by
`captures_iter` (src/main.rs line 172). -/
def guardScan (content : Chars) : List (Nat × Nat × Nat) :=
  guardScanGo content.length 0 true content

/-- Pair every piece of a line decomposition with its starting offset
(each piece is followed by one newline character). -/
def withPositions : List Chars → Nat → List (Nat × Chars)
  | [], _ => []
  | l :: rest, start => (start, l) :: withPositions rest (start + l.length + 1)

/-- All lines of the content with their starting byte offsets. -/
def linesWithPos (content : Chars) : List (Nat × Chars) :=
  withPositions (splitOnNl content) 0

/-- The block-extent loop of `find_type_checking_blocks` (src/main.rs
lines 185-217): starting just after the guard's colon, advance over
lines that are blank or indented strictly deeper than the guard,
accumulating `line_start + line_len + 1` positions; stop at the first
other line.  The `found` flag mirrors the source's `found_content`
variable (whose two branches behave identically). -/
def blockEndLoop (indentLen : Nat) (blockEnd : Nat) (found : Bool) : List Chars → Nat
  | [] => blockEnd
  | line :: rest =>
    if (trimC line).isEmpty then
      blockEndLoop indentLen (blockEnd + line.length + 1) found rest
    else
      let lineIndent := line.length - (trimStartC line).length
      if !found then
        if lineIndent > indentLen then
          blockEndLoop indentLen (blockEnd + line.length + 1) true rest
        else blockEnd
      else
        if lineIndent > indentLen then
          blockEndLoop indentLen (blockEnd + line.length + 1) true rest
        else blockEnd

/-- Embedding of `find_type_checking_blocks` (src/main.rs lines 168-223):
for every anchored match of the guard regex — which may span lines, as
`\s` matches `'\n'` — emit the byte range from the match start to the
end of the indentation-delimited block that follows the match end. -/
def findTypeCheckingBlocks (content : Chars) : List (Nat × Nat) :=
  (guardScan content).map (fun m =>
    (m.1, blockEndLoop m.2.1 m.2.2 false (rustLines (content.drop m.2.2))))

/-- The block-skipping pass at the start of `inline_imports` (src/main.rs
lines 240-258): copy the content between consecutive block ranges with a
monotone cursor, guarding both slices exactly as the source does. -/
def skipBlocks (content : Chars) (blocks : List (Nat × Nat)) : Chars :=
  let rc := blocks.foldl
    (fun (acc : Chars × Nat) (b : Nat × Nat) =>
      (if acc.2 < b.1 then acc.1 ++ ((content.drop acc.2).take (b.1 - acc.2)) else acc.1, b.2))
    ([], 0)
  rc.1 ++ (if rc.2 < content.length then content.drop rc.2 else [])

/-- Spec-side predicate: a line is blank, or indented strictly deeper
than the guard's indentation. -/
def blankOrDeeper (n : Nat) (l : Chars) : Bool :=
  (trimC l).isEmpty || decide (l.length - (trimStartC l).length > n)

/-- Spec-side membership of an offset in one of a list of ranges. -/
def inSomeBlock (blocks : List (Nat × Nat)) (i : Nat) : Bool :=
  blocks.any (fun b => b.1 ≤ i && i < b.2)

/-- Keep exactly the characters whose index (starting at `n`) satisfies
the predicate. -/
def filtIdx (p : Nat → Bool) : Nat → Chars → Chars
  | _, [] => []
  | n, c :: cs => if p n then c :: filtIdx p (n + 1) cs else filtIdx p (n + 1) cs

section BlockLemmas

theorem blockEndLoop_eq (n : Nat) (ls : List Chars) :
    ∀ (a : Nat) (found : Bool),
      blockEndLoop n a found ls
        = a + ((ls.takeWhile (blankOrDeeper n)).map (fun l => l.length + 1)).sum := by
  induction ls with
  | nil => intro a found; simp [blockEndLoop]
  | cons l rest ih =>
    intro a found
    by_cases hb : (trimC l).isEmpty
    · have hbd : blankOrDeeper n l = true := by simp [blankOrDeeper, hb]
      simp only [blockEndLoop, hb, if_true, List.takeWhile_cons, hbd, List.map_cons,
        List.sum_cons]
      rw [ih]
      omega
    · by_cases hd : l.length - (trimStartC l).length > n
      · have hbd : blankOrDeeper n l = true := by simp [blankOrDeeper, hd]
        have hstep : blockEndLoop n a found (l :: rest)
            = blockEndLoop n (a + l.length + 1) true rest := by
          cases found <;> simp [blockEndLoop, hb, hd]
        rw [hstep, ih]
        simp only [List.takeWhile_cons, hbd, if_true, List.map_cons, List.sum_cons]
        omega
      · have hbd : blankOrDeeper n l = false := by
          simp [blankOrDeeper, hb, hd]
        simp only [blockEndLoop, hb, if_false, List.takeWhile_cons, hbd]
        cases found <;> simp [hd]

theorem mem_withPositions_ge (ls : List Chars) :
    ∀ (s : Nat), ∀ q ∈ withPositions ls s, s ≤ q.1 := by
  induction ls with
  | nil => intro s q hq; simp [withPositions] at hq
  | cons l rest ih =>
    intro s q hq
    simp only [withPositions, List.mem_cons] at hq
    rcases hq with h | h
    · simp [h]
    · have := ih (s + l.length + 1) q h
      omega

theorem withPositions_pairwise (ls : List Chars) :
    ∀ (s : Nat), (withPositions ls s).Pairwise (fun p q => p.1 < q.1) := by
  induction ls with
  | nil => intro s; simp [withPositions]
  | cons l rest ih =>
    intro s
    simp only [withPositions]
    refine List.Pairwise.cons ?_ (ih (s + l.length + 1))
    intro q hq
    have := mem_withPositions_ge rest (s + l.length + 1) q hq
    simp
    omega

theorem filtIdx_append (p : Nat → Bool) (a b : Chars) :
    ∀ n, filtIdx p n (a ++ b) = filtIdx p n a ++ filtIdx p (n + a.length) b := by
  induction a with
  | nil => intro n; simp [filtIdx]
  | cons c cs ih =>
    intro n
    simp only [List.cons_append, filtIdx, List.append_eq, List.length_cons]
    rw [ih (n + 1)]
    have h2 : n + 1 + cs.length = n + (cs.length + 1) := by omega
    rw [h2]
    split <;> simp

theorem filtIdx_all_true (p : Nat → Bool) (l : Chars) :
    ∀ n, (∀ i, n ≤ i → i < n + l.length → p i = true) → filtIdx p n l = l := by
  induction l with
  | nil => intro n _; simp [filtIdx]
  | cons c cs ih =>
    intro n h
    have hn : p n = true := h n (le_refl n) (by simp)
    simp only [filtIdx, hn, if_true]
    rw [ih (n + 1)]
    intro i h1 h2
    exact h i (by omega) (by simp at h2 ⊢; omega)

theorem filtIdx_all_false (p : Nat → Bool) (l : Chars) :
    ∀ n, (∀ i, n ≤ i → i < n + l.length → p i = false) → filtIdx p n l = [] := by
  induction l with
  | nil => intro n _; simp [filtIdx]
  | cons c cs ih =>
    intro n h
    have hn : p n = false := h n (le_refl n) (by simp)
    simp only [filtIdx, hn, Bool.false_eq_true, if_false]
    rw [ih (n + 1)]
    intro i h1 h2
    exact h i (by omega) (by simp at h2 ⊢; omega)

theorem filtIdx_congr (p q : Nat → Bool) (l : Chars) :
    ∀ n, (∀ i, n ≤ i → i < n + l.length → p i = q i) → filtIdx p n l = filtIdx q n l := by
  induction l with
  | nil => intro n _; simp [filtIdx]
  | cons c cs ih =>
    intro n h
    have hn : p n = q n := h n (le_refl n) (by simp)
    have hrest : filtIdx p (n + 1) cs = filtIdx q (n + 1) cs := by
      refine ih (n + 1) (fun i h1 h2 => h i (by omega) ?_)
      simp at h2 ⊢
      omega
    simp only [filtIdx, hn, hrest]

/-- Recursive form of the block-skipping pass, for reasoning. -/
def skipGo (content : Chars) : Nat → List (Nat × Nat) → Chars
  | cur, [] => if cur < content.length then content.drop cur else []
  | cur, b :: bs =>
    (if cur < b.1 then (content.drop cur).take (b.1 - cur) else []) ++ skipGo content b.2 bs

theorem skipBlocks_foldl_acc (content : Chars) (blocks : List (Nat × Nat)) :
    ∀ (acc : Chars) (cur : Nat),
      (blocks.foldl
        (fun (a : Chars × Nat) (b : Nat × Nat) =>
          (if a.2 < b.1 then a.1 ++ ((content.drop a.2).take (b.1 - a.2)) else a.1, b.2))
        (acc, cur)).1
        ++ (if (blocks.foldl
              (fun (a : Chars × Nat) (b : Nat × Nat) =>
                (if a.2 < b.1 then a.1 ++ ((content.drop a.2).take (b.1 - a.2)) else a.1, b.2))
              (acc, cur)).2 < content.length
            then content.drop (blocks.foldl
              (fun (a : Chars × Nat) (b : Nat × Nat) =>
                (if a.2 < b.1 then a.1 ++ ((content.drop a.2).take (b.1 - a.2)) else a.1, b.2))
              (acc, cur)).2
            else [])
      = acc ++ skipGo content cur blocks := by
  induction blocks with
  | nil => intro acc cur; simp [skipGo]
  | cons b bs ih =>
    intro acc cur
    simp only [List.foldl_cons, skipGo]
    by_cases h : cur < b.1
    · simp only [if_pos h]
      rw [ih (acc ++ (content.drop cur).take (b.1 - cur)) b.2]
      simp [List.append_assoc]
    · simp only [if_neg h]
      rw [ih acc b.2]
      simp

theorem skipBlocks_eq_skipGo (content : Chars) (blocks : List (Nat × Nat)) :
    skipBlocks content blocks = skipGo content 0 blocks := by
  have := skipBlocks_foldl_acc content blocks [] 0
  simpa [skipBlocks] using this

theorem skipGo_eq_filtIdx (content : Chars) :
    ∀ (blocks : List (Nat × Nat)) (cur : Nat),
      List.Pairwise (fun b c : Nat × Nat => b.2 ≤ c.1) blocks →
      (∀ b ∈ blocks, b.1 ≤ b.2 ∧ b.2 ≤ content.length) →
      (∀ b ∈ blocks, cur ≤ b.1) →
      skipGo content cur blocks
        = filtIdx (fun i => !inSomeBlock blocks i) cur (content.drop cur) := by
  intro blocks
  induction blocks with
  | nil =>
    intro cur _ _ _
    simp only [skipGo]
    by_cases h : cur < content.length
    · rw [if_pos h, filtIdx_all_true]
      intro i _ _
      simp [inSomeBlock]
    · rw [if_neg h]
      have : content.drop cur = [] := List.drop_eq_nil_of_le (by omega)
      rw [this]
      simp [filtIdx]
  | cons b bs ih =>
    intro cur hpw hbd hcur
    obtain ⟨hb1, hb2⟩ := hbd b (List.mem_cons_self b bs)
    have hcb : cur ≤ b.1 := hcur b (List.mem_cons_self b bs)
    have hpw2 := (List.pairwise_cons.mp hpw).2
    have hhead := (List.pairwise_cons.mp hpw).1
    have hbd2 : ∀ x ∈ bs, x.1 ≤ x.2 ∧ x.2 ≤ content.length :=
      fun x hx => hbd x (List.mem_cons_of_mem b hx)
    have hcur2 : ∀ x ∈ bs, b.2 ≤ x.1 := hhead
    -- decompose content.drop cur into [cur, b.1) ++ [b.1, b.2) ++ [b.2, ...)
    have hsplit1 : content.drop cur
        = (content.drop cur).take (b.1 - cur) ++ content.drop b.1 := by
      conv_lhs => rw [← List.take_append_drop (b.1 - cur) (content.drop cur)]
      rw [List.drop_drop]
      congr 2
      omega
    have hsplit2 : content.drop b.1
        = (content.drop b.1).take (b.2 - b.1) ++ content.drop b.2 := by
      conv_lhs => rw [← List.take_append_drop (b.2 - b.1) (content.drop b.1)]
      rw [List.drop_drop]
      congr 2
      omega
    have hlenA : ((content.drop cur).take (b.1 - cur)).length = b.1 - cur := by
      simp
      omega
    have hlenB : ((content.drop b.1).take (b.2 - b.1)).length = b.2 - b.1 := by
      simp
      omega
    simp only [skipGo]
    rw [ih b.2 hpw2 hbd2 hcur2]
    conv_rhs => rw [hsplit1, hsplit2]
    rw [filtIdx_append, filtIdx_append, hlenA, hlenB]
    have e1 : cur + (b.1 - cur) = b.1 := by omega
    have e2 : b.1 + (b.2 - b.1) = b.2 := by omega
    rw [e1, e2]
    have hA : filtIdx (fun i => !inSomeBlock (b :: bs) i) cur
        ((content.drop cur).take (b.1 - cur)) = (content.drop cur).take (b.1 - cur) := by
      apply filtIdx_all_true
      intro i hi1 hi2
      rw [hlenA] at hi2
      have hfa : inSomeBlock (b :: bs) i = false := by
        simp only [inSomeBlock, List.any_eq_false]
        intro x hx
        simp only [Bool.and_eq_true, decide_eq_true_eq, not_and]
        intro hxi
        rcases List.mem_cons.mp hx with rfl | hx2
        · omega
        · have := hcur2 x hx2
          omega
      simp [hfa]
    have hB : filtIdx (fun i => !inSomeBlock (b :: bs) i) b.1
        ((content.drop b.1).take (b.2 - b.1)) = [] := by
      apply filtIdx_all_false
      intro i hi1 hi2
      rw [hlenB] at hi2
      have htr : inSomeBlock (b :: bs) i = true := by
        simp only [inSomeBlock, List.any_eq_true]
        exact ⟨b, List.mem_cons_self b bs,
          by simp only [Bool.and_eq_true, decide_eq_true_eq]; omega⟩
      simp [htr]
    have hC : filtIdx (fun i => !inSomeBlock (b :: bs) i) b.2 (content.drop b.2)
        = filtIdx (fun i => !inSomeBlock bs i) b.2 (content.drop b.2) := by
      apply filtIdx_congr
      intro i hi1 _
      have hni : ¬ i < b.2 := by omega
      simp [inSomeBlock, List.any_cons, hni]
    rw [hA, hB, hC]
    by_cases h : cur < b.1
    · rw [if_pos h]
      simp
    · rw [if_neg h]
      have : b.1 - cur = 0 := by omega
      rw [this]
      simp

theorem dropLit_eq :
    ∀ (lit xs r : Chars), dropLit lit xs = some r → xs = lit ++ r := by
  intro lit
  induction lit with
  | nil =>
    intro xs r h
    simp only [dropLit, Option.some_inj] at h
    simp [h]
  | cons c cs ih =>
    intro xs r h
    cases xs with
    | nil => simp [dropLit] at h
    | cons d ds =>
      simp only [dropLit] at h
      split at h
      · rename_i hd
        subst hd
        simpa using ih ds r h
      · simp at h

theorem dropLit_drop (lit xs r : Chars) (h : dropLit lit xs = some r) :
    r = xs.drop lit.length := by
  rw [dropLit_eq lit xs r h, List.drop_left]

theorem guardMatch_nil : guardMatch [] = none := rfl

theorem guardMatch_mk (s : Chars) (io : Nat × Nat) (h : guardMatch s = some io) :
    ∃ (K : Nat) (rest : Chars), s.drop K = ':' :: rest ∧ io.2 = K + 1 := by
  rw [guardMatch] at h
  simp only [] at h
  split at h
  · simp at h
  · rename_i r2 h1
    split at h
    · simp at h
    · split at h
      · simp at h
      · rename_i r3 h2
        split at h
        · rename_i rest h3
          simp only [Option.some_inj] at h
          set a := (s.takeWhile isIndentChar).length
          set w1 := (r2.takeWhile isWs).length
          set w2 := (r3.takeWhile isWs).length
          have hr2 : r2 = s.drop (a + (str "if").length) := by
            rw [dropLit_drop _ _ _ h1, List.drop_drop]
          have hr3 : r3 = s.drop
              (a + (str "if").length + w1 + (str "TYPE_CHECKING").length) := by
            rw [dropLit_drop _ _ _ h2, hr2, List.drop_drop, List.drop_drop]
            have harith : a + (str "if").length + (w1 + (str "TYPE_CHECKING").length)
                = a + (str "if").length + w1 + (str "TYPE_CHECKING").length := by
              omega
            rw [harith]
          rw [hr3, List.drop_drop] at h3
          refine ⟨a + (str "if").length + w1 + (str "TYPE_CHECKING").length + w2,
            rest, h3, ?_⟩
          · have hlen := List.length_drop
              (a + (str "if").length + w1 + (str "TYPE_CHECKING").length + w2) s
            rw [h3] at hlen
            simp only [List.length_cons] at hlen
            rw [← h]
            dsimp only
            omega
        · simp at h

theorem guardMatch_colon (s : Chars) (io : Nat × Nat) (h : guardMatch s = some io) :
    0 < io.2 ∧ io.2 ≤ s.length ∧ s[io.2 - 1]? = some ':' := by
  obtain ⟨K, rest, hdrop, hio⟩ := guardMatch_mk s io h
  have hlen := List.length_drop K s
  rw [hdrop] at hlen
  simp only [List.length_cons] at hlen
  refine ⟨by omega, by omega, ?_⟩
  have h0 : (s.drop K)[0]? = some ':' := by rw [hdrop]; simp
  rw [List.getElem?_drop] at h0
  have hK : io.2 - 1 = K + 0 := by omega
  rw [hK]
  exact h0

theorem guardMatch_none_of_drop_nil (content : Chars) (pos q : Nat)
    (hs : content.drop pos = []) (hq : pos ≤ q) :
    guardMatch (content.drop q) = none := by
  have hnil : content.drop q = [] := by
    rw [List.drop_eq_nil_iff] at hs ⊢
    omega
  rw [hnil]
  rfl

theorem guardScanGo_spec (content : Chars) :
    ∀ (fuel : Nat) (pos : Nat) (atStart : Bool) (s : Chars),
      content.drop pos = s → s.length ≤ fuel → atStart = anchorAt content pos →
      (∀ m ∈ guardScanGo fuel pos atStart s,
          pos ≤ m.1 ∧ anchorAt content m.1 = true ∧
          guardMatch (content.drop m.1) = some (m.2.1, m.2.2 - m.1) ∧
          m.1 < m.2.2 ∧ m.2.2 ≤ content.length)
      ∧ List.Pairwise (fun a b => a.2.2 ≤ b.1) (guardScanGo fuel pos atStart s)
      ∧ (∀ (q : Nat) (io : Nat × Nat), pos ≤ q → anchorAt content q = true →
          guardMatch (content.drop q) = some io →
          ∃ m ∈ guardScanGo fuel pos atStart s, m.1 ≤ q ∧ q < m.2.2) := by
  intro fuel
  induction fuel with
  | zero =>
    intro pos atStart s hs hlen _
    have hnil : s = [] := List.eq_nil_of_length_eq_zero (by omega)
    subst hnil
    refine ⟨by simp [guardScanGo], by simp [guardScanGo], ?_⟩
    intro q io hq _ hgm
    rw [guardMatch_none_of_drop_nil content pos q hs hq] at hgm
    simp at hgm
  | succ fuel ih =>
    intro pos atStart s hs hlen hanchor
    cases s with
    | nil =>
      refine ⟨by cases atStart <;> simp [guardScanGo],
        by cases atStart <;> simp [guardScanGo], ?_⟩
      intro q io hq _ hgm
      rw [guardMatch_none_of_drop_nil content pos q hs hq] at hgm
      simp at hgm
    | cons c rest =>
      have hcpos : content[pos]? = some c := by
        have h0 : (content.drop pos)[0]? = some c := by rw [hs]; simp
        rw [List.getElem?_drop] at h0
        simpa using h0
      have hrest : content.drop (pos + 1) = rest := by
        have h0 : (content.drop pos).drop 1 = rest := by rw [hs]; rfl
        rwa [List.drop_drop] at h0
      have hanchor1 : decide (c = '\n') = anchorAt content (pos + 1) := by
        simp [anchorAt, hcpos]
      have hlrest : rest.length ≤ fuel := by
        have h0 : (c :: rest).length ≤ fuel + 1 := hlen
        simpa using h0
      cases atStart with
      | false =>
        have heq : guardScanGo (fuel + 1) pos false (c :: rest)
            = guardScanGo fuel (pos + 1) (decide (c = '\n')) rest := rfl
        have ihs := ih (pos + 1) (decide (c = '\n')) rest hrest hlrest hanchor1
        refine ⟨?_, ?_, ?_⟩
        · intro m hm
          rw [heq] at hm
          have hm2 := ihs.1 m hm
          exact ⟨by omega, hm2.2⟩
        · rw [heq]
          exact ihs.2.1
        · intro q io hq hanc hgm
          rw [heq]
          rcases Nat.lt_or_ge pos q with hlt | hge
          · exact ihs.2.2 q io hlt hanc hgm
          · have hqe : q = pos := by omega
            subst hqe
            rw [hanc] at hanchor
            simp at hanchor
      | true =>
        cases hgm0 : guardMatch (c :: rest) with
        | none =>
          have heq : guardScanGo (fuel + 1) pos true (c :: rest)
              = guardScanGo fuel (pos + 1) (decide (c = '\n')) rest := by
            rw [guardScanGo.eq_def]
            dsimp only
            rw [hgm0]
          have ihs := ih (pos + 1) (decide (c = '\n')) rest hrest hlrest hanchor1
          refine ⟨?_, ?_, ?_⟩
          · intro m hm
            rw [heq] at hm
            have hm2 := ihs.1 m hm
            exact ⟨by omega, hm2.2⟩
          · rw [heq]
            exact ihs.2.1
          · intro q io hq hanc hgm
            rw [heq]
            rcases Nat.lt_or_ge pos q with hlt | hge
            · exact ihs.2.2 q io hlt hanc hgm
            · have hqe : q = pos := by omega
              subst hqe
              rw [hs, hgm0] at hgm
              simp at hgm
        | some io =>
          obtain ⟨hiopos, hiole, hcolon⟩ := guardMatch_colon (c :: rest) io hgm0
          have heq : guardScanGo (fuel + 1) pos true (c :: rest)
              = (pos, io.1, pos + io.2)
                :: guardScanGo fuel (pos + io.2) false ((c :: rest).drop io.2) := by
            rw [guardScanGo.eq_def]
            dsimp only
            rw [hgm0]
          have hclen : (c :: rest).length = content.length - pos := by
            have h0 := List.length_drop pos content
            rw [hs] at h0
            exact h0
          have hplen : pos + rest.length + 1 = content.length := by
            simp only [List.length_cons] at hclen
            omega
          have hdrop2 : content.drop (pos + io.2) = (c :: rest).drop io.2 := by
            have h0 : (content.drop pos).drop io.2 = (c :: rest).drop io.2 := by
              rw [hs]
            rwa [List.drop_drop] at h0
          have hlen2 : ((c :: rest).drop io.2).length ≤ fuel := by
            rw [List.length_drop]
            simp only [List.length_cons]
            omega
          have hanchor2 : false = anchorAt content (pos + io.2) := by
            have hgetc : content[pos + io.2 - 1]? = some ':' := by
              have h0 : (content.drop pos)[io.2 - 1]? = some ':' := by
                rw [hs]
                exact hcolon
              rw [List.getElem?_drop] at h0
              have harith : pos + io.2 - 1 = pos + (io.2 - 1) := by omega
              rw [harith]
              exact h0
            have hrepr : pos + io.2 = (pos + io.2 - 1) + 1 := by omega
            rw [hrepr]
            simp [anchorAt, hgetc]
          have ihs := ih (pos + io.2) false ((c :: rest).drop io.2)
            hdrop2 hlen2 hanchor2
          refine ⟨?_, ?_, ?_⟩
          · intro m hm
            rw [heq] at hm
            rcases List.mem_cons.mp hm with hm1 | hm2
            · subst hm1
              refine ⟨le_rfl, hanchor.symm, ?_, by dsimp only; omega, ?_⟩
              · dsimp only
                rw [hs, hgm0]
                have harith : pos + io.2 - pos = io.2 := by omega
                rw [harith]
              · dsimp only
                simp only [List.length_cons] at hiole
                omega
            · have hm3 := ihs.1 m hm2
              exact ⟨by omega, hm3.2⟩
          · rw [heq]
            refine List.Pairwise.cons ?_ ihs.2.1
            intro m hm
            exact (ihs.1 m hm).1
          · intro q io' hq hanc hgm
            rw [heq]
            rcases Nat.lt_or_ge q (pos + io.2) with hlt | hge
            · exact ⟨(pos, io.1, pos + io.2), List.mem_cons_self _ _, hq, hlt⟩
            · obtain ⟨m, hm, h1, h2⟩ := ihs.2.2 q io' hge hanc hgm
              exact ⟨m, List.mem_cons_of_mem _ hm, h1, h2⟩

end BlockLemmas

/-- C9 (amended): `find_type_checking_blocks` returns one byte range per
non-overlapping match of the anchored guard regex — whose `\s` matches
newlines, so a match (hence a block) can start at an `if` on one line
and close its `:` on a later line — and every match yields exactly one
range: it starts at the match start and ends after the maximal run of
lines following the match end that are blank or indented strictly
deeper than the captured indentation, counting each line's length plus
one newline.  The matches themselves are sound (each sits at a line
anchor and matches the pattern), orderly (non-overlapping, in text
order) and complete (every anchored position where the pattern matches
falls inside some reported match).  The resulting ranges have strictly
increasing starts but need not be non-overlapping (a guard nested
inside another guard's block yields a nested range).  Whenever a list
of ranges is ordered and pairwise disjoint with ends within bounds, the
block-removal pass produces exactly the content with those ranges
deleted. -/
theorem C9_type_checking_blocks (content : Chars) :
    (∀ b ∈ findTypeCheckingBlocks content,
        ∃ m ∈ guardScan content,
          b.1 = m.1 ∧
          b.2 = m.2.2
            + (((rustLines (content.drop m.2.2)).takeWhile (blankOrDeeper m.2.1)).map
                (fun l => l.length + 1)).sum)
    ∧ (∀ m ∈ guardScan content,
        (m.1, m.2.2
          + (((rustLines (content.drop m.2.2)).takeWhile (blankOrDeeper m.2.1)).map
              (fun l => l.length + 1)).sum) ∈ findTypeCheckingBlocks content)
    ∧ (∀ m ∈ guardScan content,
        anchorAt content m.1 = true ∧
        guardMatch (content.drop m.1) = some (m.2.1, m.2.2 - m.1) ∧
        m.1 < m.2.2 ∧ m.2.2 ≤ content.length)
    ∧ List.Pairwise (fun a b : Nat × Nat × Nat => a.2.2 ≤ b.1) (guardScan content)
    ∧ (∀ (q : Nat) (io : Nat × Nat), anchorAt content q = true →
        guardMatch (content.drop q) = some io →
        ∃ m ∈ guardScan content, m.1 ≤ q ∧ q < m.2.2)
    ∧ List.Pairwise (fun b c : Nat × Nat => b.1 < c.1) (findTypeCheckingBlocks content)
    ∧ (∀ blocks : List (Nat × Nat),
        List.Pairwise (fun b c : Nat × Nat => b.2 ≤ c.1) blocks →
        (∀ b ∈ blocks, b.1 ≤ b.2 ∧ b.2 ≤ content.length) →
        skipBlocks content blocks = filtIdx (fun i => !inSomeBlock blocks i) 0 content) := by
  have hspec := guardScanGo_spec content content.length 0 true content
    (by simp) le_rfl rfl
  refine ⟨?_, ?_, ?_, hspec.2.1, ?_, ?_, ?_⟩
  · intro b hb
    rcases List.mem_map.mp hb with ⟨m, hm, hf⟩
    refine ⟨m, hm, ?_, ?_⟩
    · rw [← hf]
    · rw [← hf]
      simp only
      rw [blockEndLoop_eq]
  · intro m hm
    apply List.mem_map.mpr
    refine ⟨m, hm, ?_⟩
    rw [blockEndLoop_eq]
  · intro m hm
    exact ((hspec.1 m hm).2)
  · intro q io hanc hgm
    exact hspec.2.2 q io (Nat.zero_le q) hanc hgm
  · rw [findTypeCheckingBlocks, List.pairwise_map]
    refine hspec.2.1.imp_of_mem ?_
    intro a b ha _ hab
    have h1 := (hspec.1 a ha).2.2.2.1
    simp only
    omega
  · intro blocks hpw hbd
    rw [skipBlocks_eq_skipGo,
      skipGo_eq_filtIdx content blocks 0 hpw hbd (fun b _ => Nat.zero_le b.1)]
    rw [List.drop_zero]

/-- C9 counterexample: two behaviours contradict the claim.  First, on
content where one `if TYPE_CHECKING:` guard is nested inside another's
block, `find_type_checking_blocks` returns overlapping ranges (the
second range starts at offset 18, inside the first range `[0, 67)`),
contradicting non-overlap; the removal pass then fails to remove the
ranges: its output differs from the content with the ranges deleted
(the line `    y = 1` from inside the first range reappears).  Second,
the claim's "one per line matching `<indent>if TYPE_CHECKING:`" is
wrong: on `"if\nTYPE_CHECKING:..."` no single line matches the guard
pattern, yet the regex — whose `\s` matches `'\n'` — matches across the
two lines and a block `[0, 31)` is emitted. -/
theorem C9_counterexample :
    findTypeCheckingBlocks
        (str "if TYPE_CHECKING:\n    if TYPE_CHECKING:\n        import x\n    y = 1\nz = 2\n")
      = [(0, 67), (18, 57)] ∧
    inSomeBlock [(0, 67)] 18 = true ∧
    skipBlocks
        (str "if TYPE_CHECKING:\n    if TYPE_CHECKING:\n        import x\n    y = 1\nz = 2\n")
        [(0, 67), (18, 57)]
      = str "    y = 1\nz = 2\n" ∧
    str "    y = 1\nz = 2\n"
      ≠ filtIdx (fun i => !inSomeBlock [(0, 67), (18, 57)] i) 0
          (str "if TYPE_CHECKING:\n    if TYPE_CHECKING:\n        import x\n    y = 1\nz = 2\n") ∧
    findTypeCheckingBlocks (str "if\nTYPE_CHECKING:\n    import x\ny = 1\n")
      = [(0, 31)] ∧
    (rustLines (str "if\nTYPE_CHECKING:\n    import x\ny = 1\n")).all
        (fun l => guardMatch l = none) = true := by
  refine ⟨by decide, by decide, by decide, by decide, by decide, by decide⟩

/-- C9 witness: the characterization applied to a concrete content with
a single non-nested guard block; the hypotheses of the removal part are
discharged at the concrete range list `[(6, 38)]`. -/
theorem C9_witness :
    skipBlocks (str "x = 1\nif TYPE_CHECKING:\n    import os\ny = 2\n") [(6, 38)]
      = filtIdx (fun i => !inSomeBlock [(6, 38)] i) 0
          (str "x = 1\nif TYPE_CHECKING:\n    import os\ny = 2\n") :=
  (C9_type_checking_blocks
    (str "x = 1\nif TYPE_CHECKING:\n    import os\ny = 2\n")).2.2.2.2.2.2
    [(6, 38)] (by decide) (by decide)

/-- Negation of whitespace, for the regex class `\S`. -/
def isNonWs (c : Char) : Bool := !isWs c

/-- Does the module token start with one of the configured prefixes?
This is the regex alternation `(?:\.|name1|name2|...)` followed by `\S*`:
since `\S*` greedily absorbs the rest of the maximal non-whitespace run,
the token matches exactly when some alternative is a prefix of it.  The
prefixes are treated as literal strings (the source interpolates them
into the regex unescaped; the always-present first alternative `\.`
denotes a literal dot). -/
def startsWithOneOf (prefixes : List Chars) (s : Chars) : Bool :=
  prefixes.any (fun p => (dropLit p s).isSome)

/-- Match the import regex
`^([ \t]*)from\s+((?:prefixes)\S*)\s+import\s+(.+)$` against one line
(the regex is anchored at a line start and `(.+)$` pins the match end to
the line end, so a match occupies exactly one line).  Returns the
captured indentation, module reference, and imported-names clause. -/
def matchImportLine (prefixes : List Chars) (line : Chars) :
    Option (Chars × Chars × Chars) :=
  let ind := line.takeWhile isIndentChar
  match dropLit (str "from") (line.drop ind.length) with
  | none => none
  | some r1 =>
    let ws1 := (r1.takeWhile isWs).length
    if ws1 = 0 then none
    else
      let r2 := r1.drop ws1
      let tok := r2.takeWhile isNonWs
      if tok.isEmpty then none
      else if !startsWithOneOf prefixes tok then none
      else
        let r3 := r2.drop tok.length
        let ws2 := (r3.takeWhile isWs).length
        if ws2 = 0 then none
        else
          match dropLit (str "import") (r3.drop ws2) with
          | none => none
          | some r4 =>
            let ws3 := (r4.takeWhile isWs).length
            if ws3 = 0 then none
            else if (r4.drop ws3).isEmpty then none
            else some (ind, tok, r4.drop ws3)

/-- One located import statement: the `start`/`matchEnd` offsets of the
regex match (one full line), the captured indentation, module reference
and names clause, and the matched line text itself. -/
structure ImportMatch where
  start : Nat
  indent : Chars
  moduleRef : Chars
  names : Chars
  line : Chars
deriving DecidableEq

/-- Offset just past the regex match (the end of the matched line). -/
def ImportMatch.matchEnd (m : ImportMatch) : Nat := m.start + m.line.length

/-- All import-regex matches of the content, in order of appearance. -/
def findImports (prefixes : List Chars) (content : Chars) : List ImportMatch :=
  (linesWithPos content).filterMap (fun sl =>
    match matchImportLine prefixes sl.2 with
    | none => none
    | some itr => some ⟨sl.1, itr.1, itr.2.1, itr.2.2, sl.2⟩)

/-- The closing-parenthesis scan of `inline_imports` (src/main.rs lines
282-303): walk the remaining characters with a depth counter that
starts at 1; on the `')'` that brings the depth to 0, return the number
of characters scanned (inclusive); if the text ends first, return
`none` (the source then leaves the match end unchanged). -/
def parenScan (depth scanned : Nat) : Chars → Option Nat
  | [] => none
  | c :: cs =>
    if c = '(' then parenScan (depth + 1) (scanned + 1) cs
    else if c = ')' then
      if depth = 1 then some (scanned + 1)
      else parenScan (depth - 1) (scanned + 1) cs
    else parenScan depth (scanned + 1) cs

/-- Span extension for one match (src/main.rs lines 277-311): if the
matched line ends with `'('` after trimming trailing whitespace, extend
the end to the matching closing parenthesis and skip a following line
terminator; otherwise just skip the line terminator after the match. -/
def extendEnd (content : Chars) (m : ImportMatch) : Nat :=
  if (trimEndC m.line).getLast? = some '(' then
    match parenScan 1 0 (content.drop m.matchEnd) with
    | none => m.matchEnd
    | some k =>
      let e := m.matchEnd + k
      if (content.drop e).head? = some '\n' then e + 1
      else if (content.drop e).take 2 = str "\r\n" then e + 2
      else e
  else
    if (content.drop m.matchEnd).head? = some '\n' then m.matchEnd + 1
    else if (content.drop m.matchEnd).take 2 = str "\r\n" then m.matchEnd + 2
    else m.matchEnd

/-- Outcomes of a fallible or panicking Rust computation. -/
inductive Fail where
  | io       -- an error propagated to the caller with the `?` operator
  | panicked -- a panic: `.unwrap()` on an `Err`, or an invalid slice index
  | fuelOut  -- artifact of the fuel-indexed embedding of recursion
deriving DecidableEq

deriving instance DecidableEq for Except

/-- The abstract storage provider (the `FileSystem` trait): whole-file
read and existence test, each fallible. -/
structure FSEnv where
  read? : MPath → Except Unit Chars
  exists? : MPath → Except Unit Bool

/-- Rust slice `content[a..b]`, which panics when `a > b` or `b` is out
of range. -/
def checkedSlice (content : Chars) (a b : Nat) : Except Fail Chars :=
  if a ≤ b ∧ b ≤ content.length then .ok ((content.drop a).take (b - a))
  else .error .panicked

/-- The module-path candidate list of `inline_imports` (src/main.rs lines
314-323): a dotted reference resolves to a single path relative to the
current file's directory (leading dots stripped, remaining dots become
path separators); otherwise one candidate per search root, in order. -/
def candidatePaths (sysPath : List MPath) (parentDir : MPath) (submodule : Chars) :
    List MPath :=
  if submodule.head? = some '.' then
    [pjoin parentDir (dotsToSlashes (stripLeadingDots submodule))]
  else
    sysPath.map (fun p => pjoin p (dotsToSlashes submodule))

/-- The candidate-probing loop of `inline_imports` (src/main.rs lines
327-408): for each candidate, test `<path>/__init__.py` then
`<path>.py` (each `.unwrap()`ed existence test panics on error); on the
first hit, either recurse into the file after inserting it into the
processed set — wrapping the re-indented result in marker comments
unless in release mode — or, when already processed, emit only the
already-inlined marker (suppressed in release mode).  Returns whether a
candidate was found, the grown output buffer, and the processed set. -/
def tryCandidates (env : FSEnv)
    (recurse : MPath → List MPath → Except Fail (Chars × List MPath))
    (release : Bool) (indent submodule : Chars) :
    List MPath → Chars → List MPath → Except Fail (Bool × Chars × List MPath)
  | [], result, processed => .ok (false, result, processed)
  | mp :: rest, result, processed =>
    match env.exists? (initPath mp) with
    | .error _ => .error .panicked
    | .ok true =>
      if processed.contains (initPath mp) then
        .ok (true,
          (if !release then
            result ++ indent ++ str "# →→ " ++ submodule ++ str " ←← package already inlined\n"
          else result), processed)
      else
        match recurse (initPath mp) (initPath mp :: processed) with
        | .error e => .error e
        | .ok (initContent, processed2) =>
          .ok (true,
            (if !release then
              result ++ indent ++ str "# ↓↓↓ inlined package: " ++ submodule ++ ['\n']
            else result)
            ++ reindent indent initContent ++ ['\n']
            ++ (if !release then
                indent ++ str "# ↑↑↑ inlined package: " ++ submodule ++ ['\n']
              else []), processed2)
    | .ok false =>
      match env.exists? (withExtPy mp) with
      | .error _ => .error .panicked
      | .ok true =>
        if processed.contains (withExtPy mp) then
          .ok (true,
            (if !release then
              result ++ indent ++ str "# →→ " ++ submodule ++ str " ←← module already inlined\n"
            else result), processed)
        else
          match recurse (withExtPy mp) (withExtPy mp :: processed) with
          | .error e => .error e
          | .ok (modContent, processed2) =>
            .ok (true,
              (if !release then
                result ++ indent ++ str "# ↓↓↓ inlined submodule: " ++ submodule ++ ['\n']
              else result)
              ++ reindent indent modContent ++ ['\n']
              ++ (if !release then
                  indent ++ str "# ↑↑↑ inlined submodule: " ++ submodule ++ ['\n']
                else []), processed2)
      | .ok false => tryCandidates env recurse release indent submodule rest result processed

/-- The per-match loop body of `inline_imports` (src/main.rs lines
266-416): for each match in order, extend its span, copy the unmatched
content since the previous match's end (a Rust slice that panics if the
cursor has moved past the match start), resolve and inline via
`tryCandidates`, and if no candidate was found copy the original
statement text verbatim; the cursor advances to the extended end. -/
def processMatches (env : FSEnv)
    (recurse : MPath → List MPath → Except Fail (Chars × List MPath))
    (release : Bool) (sysPath : List MPath) (parentDir : MPath) (content : Chars) :
    List ImportMatch → Chars → Nat → List MPath → Except Fail (Chars × Nat × List MPath)
  | [], result, lastEnd, processed => .ok (result, lastEnd, processed)
  | m :: rest, result, lastEnd, processed =>
    let e := extendEnd content m
    match checkedSlice content lastEnd m.start with
    | .error err => .error err
    | .ok chunk =>
      match tryCandidates env recurse release m.indent m.moduleRef
          (candidatePaths sysPath parentDir m.moduleRef) (result ++ chunk) processed with
      | .error err => .error err
      | .ok (found, result2, processed2) =>
        let result3 := if found then result2
          else result2 ++ (content.drop m.start).take (e - m.start)
        processMatches env recurse release sysPath parentDir content rest result3 e processed2

/-- Embedding of `inline_imports` (src/main.rs lines 225-420), indexed
by fuel: read the file (an I/O error propagates), strip the
type-checking blocks, find all import matches in the stripped content,
process them, and append the remaining tail. -/
def inlineImports (env : FSEnv) (sysPath : List MPath) (prefixes : List Chars)
    (release : Bool) : Nat → MPath → List MPath → Except Fail (Chars × List MPath)
  | 0, _, _ => .error .fuelOut
  | fuel + 1, file, processed =>
    match env.read? file with
    | .error _ => .error .io
    | .ok content =>
      let contentTP := skipBlocks content (findTypeCheckingBlocks content)
      match processMatches env (inlineImports env sysPath prefixes release fuel)
          release sysPath (parentp file) contentTP
          (findImports prefixes contentTP) [] 0 processed with
      | .error e => .error e
      | .ok (result, lastEnd, processed2) => .ok (result ++ contentTP.drop lastEnd, processed2)

/-- The search-path construction of `run` (src/main.rs lines 92-94): the
directory containing the (canonicalized) entry file is inserted at the
front of the runtime search path. -/
def runSearchPath (inputFile : MPath) (pythonSysPath : List MPath) : List MPath :=
  parentp inputFile :: pythonSysPath

/-- An environment backed by an association list of files, mirroring the
in-memory test filesystem: reading a missing path is an I/O error, and
the existence test never fails. -/
def assocLookup : List (MPath × Chars) → MPath → Option Chars
  | [], _ => none
  | kv :: rest, p => if kv.1 = p then some kv.2 else assocLookup rest p

/-- Domain of an association-list filesystem. -/
def domOf (files : List (MPath × Chars)) : List MPath := files.map (·.1)

/-- Build an `FSEnv` from an association list of files. -/
def mkEnv (files : List (MPath × Chars)) : FSEnv where
  read? := fun p =>
    match assocLookup files p with
    | some c => .ok c
    | none => .error ()
  exists? := fun p => .ok ((domOf files).any (fun k => k = p))

theorem mkEnv_exists_dom (files : List (MPath × Chars)) :
    ∀ p, (mkEnv files).exists? p = .ok true → p ∈ domOf files := by
  intro p h
  simp only [mkEnv, Except.ok.injEq] at h
  rcases List.any_eq_true.mp h with ⟨x, hx, hxp⟩
  simp only [decide_eq_true_eq] at hxp
  exact hxp ▸ hx

/-- Number of filesystem paths not yet in the processed set. -/
def unprocCount (dom processed : List MPath) : Nat :=
  (dom.filter (fun p => !processed.contains p)).length

section TerminationLemmas

theorem length_filter_le_of_imp {α : Type} (l : List α) (p q : α → Bool)
    (h : ∀ x, p x = true → q x = true) :
    (l.filter p).length ≤ (l.filter q).length := by
  induction l with
  | nil => simp
  | cons a t ih =>
    by_cases hp : p a = true
    · have hq := h a hp
      simp [List.filter_cons, hp, hq]
      omega
    · have hp2 : p a = false := by revert hp; cases p a <;> simp
      simp only [List.filter_cons, hp2]
      by_cases hq : q a = true
      · simp [hq]; omega
      · have hq2 : q a = false := by revert hq; cases q a <;> simp
        simp [hq2]; exact ih

theorem length_filter_lt_of_imp {α : Type} (l : List α) (p q : α → Bool)
    (h : ∀ x, p x = true → q x = true) (a : α) (ha : a ∈ l)
    (hpa : p a = false) (hqa : q a = true) :
    (l.filter p).length < (l.filter q).length := by
  induction l with
  | nil => simp at ha
  | cons b t ih =>
    rcases List.mem_cons.mp ha with rfl | hat
    · simp only [List.filter_cons, hpa, hqa, Bool.false_eq_true, if_false, if_true]
      have := length_filter_le_of_imp t p q h
      simp
      omega
    · by_cases hp : p b = true
      · have hq := h b hp
        simp only [List.filter_cons, hp, hq, if_true]
        have := ih hat
        simp
        omega
      · have hp2 : p b = false := by revert hp; cases p b <;> simp
        simp only [List.filter_cons, hp2, Bool.false_eq_true, if_false]
        by_cases hq : q b = true
        · simp only [hq, if_true]
          have := ih hat
          simp
          omega
        · have hq2 : q b = false := by revert hq; cases q b <;> simp
          simp only [hq2, Bool.false_eq_true, if_false]
          exact ih hat

theorem unprocCount_mono (dom pr pr2 : List MPath) (h : ∀ x ∈ pr, x ∈ pr2) :
    unprocCount dom pr2 ≤ unprocCount dom pr := by
  apply length_filter_le_of_imp
  intro x hx
  simp only [Bool.not_eq_true', List.contains, List.elem_eq_mem, decide_eq_false_iff_not] at hx ⊢
  exact fun hmem => hx (h x hmem)

theorem unprocCount_insert_lt (dom pr : List MPath) (a : MPath)
    (hdom : a ∈ dom) (hpr : a ∉ pr) :
    unprocCount dom (a :: pr) < unprocCount dom pr := by
  apply length_filter_lt_of_imp
  · intro x hx
    simp only [Bool.not_eq_true', List.contains, List.elem_eq_mem,
      decide_eq_false_iff_not, List.mem_cons] at hx ⊢
    exact fun hmem => hx (Or.inr hmem)
  · exact hdom
  · simp [List.contains, List.elem_eq_mem]
  · simp [List.contains, List.elem_eq_mem, hpr]

theorem tryCandidates_mono (env : FSEnv)
    (recurse : MPath → List MPath → Except Fail (Chars × List MPath))
    (release : Bool) (ind sub : Chars)
    (hrec : ∀ p pr res, recurse p pr = .ok res → ∀ x ∈ pr, x ∈ res.2) :
    ∀ (cands : List MPath) (result : Chars) (pr : List MPath) fres,
      tryCandidates env recurse release ind sub cands result pr = .ok fres →
      ∀ x ∈ pr, x ∈ fres.2.2 := by
  intro cands
  induction cands with
  | nil =>
    intro result pr fres h x hx
    simp only [tryCandidates, Except.ok.injEq] at h
    rw [← h]
    exact hx
  | cons mp rest ih =>
    intro result pr fres h x hx
    rw [tryCandidates] at h
    split at h
    · exact absurd h (by simp)
    · split at h
      · simp only [Except.ok.injEq] at h
        rw [← h]
        exact hx
      · split at h
        · exact absurd h (by simp)
        · rename_i res2 heq
          simp only [Except.ok.injEq] at h
          rw [← h]
          exact hrec _ _ _ heq x (List.mem_cons_of_mem _ hx)
    · split at h
      · exact absurd h (by simp)
      · split at h
        · simp only [Except.ok.injEq] at h
          rw [← h]
          exact hx
        · split at h
          · exact absurd h (by simp)
          · rename_i res2 heq
            simp only [Except.ok.injEq] at h
            rw [← h]
            exact hrec _ _ _ heq x (List.mem_cons_of_mem _ hx)
      · exact ih result pr fres h x hx

theorem processMatches_mono (env : FSEnv)
    (recurse : MPath → List MPath → Except Fail (Chars × List MPath))
    (release : Bool) (sysPath : List MPath) (parentDir : MPath) (content : Chars)
    (hrec : ∀ p pr res, recurse p pr = .ok res → ∀ x ∈ pr, x ∈ res.2) :
    ∀ (ms : List ImportMatch) (result : Chars) (lastEnd : Nat) (pr : List MPath) fres,
      processMatches env recurse release sysPath parentDir content ms result lastEnd pr
        = .ok fres →
      ∀ x ∈ pr, x ∈ fres.2.2 := by
  intro ms
  induction ms with
  | nil =>
    intro result lastEnd pr fres h x hx
    simp only [processMatches, Except.ok.injEq] at h
    rw [← h]
    exact hx
  | cons m rest ih =>
    intro result lastEnd pr fres h x hx
    rw [processMatches] at h
    split at h
    · exact absurd h (by simp)
    · split at h
      · exact absurd h (by simp)
      · rename_i tres heq
        exact ih _ _ _ _ h x
          (tryCandidates_mono env recurse release m.indent m.moduleRef hrec _ _ _ _ heq x hx)

theorem inlineImports_mono (env : FSEnv) (sysPath : List MPath) (prefixes : List Chars)
    (release : Bool) :
    ∀ (fuel : Nat) (file : MPath) (pr : List MPath) res,
      inlineImports env sysPath prefixes release fuel file pr = .ok res →
      ∀ x ∈ pr, x ∈ res.2 := by
  intro fuel
  induction fuel with
  | zero => intro file pr res h; exact absurd h (by simp [inlineImports])
  | succ fuel ih =>
    intro file pr res h x hx
    rw [inlineImports] at h
    split at h
    · exact absurd h (by simp)
    · simp only [] at h
      split at h
      · exact absurd h (by simp)
      · rename_i pres heq
        simp only [Except.ok.injEq] at h
        rw [← h]
        exact processMatches_mono env _ release sysPath _ _
          (fun p pr2 res2 hr => ih p pr2 res2 hr) _ _ _ _ _ heq x hx

theorem tryCandidates_ne_fuelOut (env : FSEnv)
    (recurse : MPath → List MPath → Except Fail (Chars × List MPath))
    (release : Bool) (ind sub : Chars) (dom : List MPath) (fuel : Nat)
    (hdom : ∀ p, env.exists? p = .ok true → p ∈ dom)
    (hrecfuel : ∀ p pr, unprocCount dom pr < fuel →
      recurse p pr ≠ .error .fuelOut) :
    ∀ (cands : List MPath) (result : Chars) (pr : List MPath),
      unprocCount dom pr ≤ fuel →
      tryCandidates env recurse release ind sub cands result pr ≠ .error .fuelOut := by
  intro cands
  induction cands with
  | nil => intro result pr _; simp [tryCandidates]
  | cons mp rest ih =>
    intro result pr hcnt h
    rw [tryCandidates] at h
    split at h
    · simp at h
    · rename_i hex
      split at h
      · simp at h
      · rename_i hcon
        have hmem : initPath mp ∈ dom := hdom _ hex
        have hnot : initPath mp ∉ pr := by
          simpa [List.contains, List.elem_eq_mem] using hcon
        have hlt : unprocCount dom (initPath mp :: pr) < fuel :=
          lt_of_lt_of_le (unprocCount_insert_lt dom pr _ hmem hnot) hcnt
        split at h
        · rename_i e heq
          simp only [Except.error.injEq] at h
          exact hrecfuel _ _ hlt (h ▸ heq)
        · simp at h
    · rename_i hex0
      split at h
      · simp at h
      · rename_i hex
        split at h
        · simp at h
        · rename_i hcon
          have hmem : withExtPy mp ∈ dom := hdom _ hex
          have hnot : withExtPy mp ∉ pr := by
            simpa [List.contains, List.elem_eq_mem] using hcon
          have hlt : unprocCount dom (withExtPy mp :: pr) < fuel :=
            lt_of_lt_of_le (unprocCount_insert_lt dom pr _ hmem hnot) hcnt
          split at h
          · rename_i e heq
            simp only [Except.error.injEq] at h
            exact hrecfuel _ _ hlt (h ▸ heq)
          · simp at h
      · exact ih result pr hcnt h

theorem processMatches_ne_fuelOut (env : FSEnv)
    (recurse : MPath → List MPath → Except Fail (Chars × List MPath))
    (release : Bool) (sysPath : List MPath) (parentDir : MPath) (content : Chars)
    (dom : List MPath) (fuel : Nat)
    (hdom : ∀ p, env.exists? p = .ok true → p ∈ dom)
    (hrec : ∀ p pr res, recurse p pr = .ok res → ∀ x ∈ pr, x ∈ res.2)
    (hrecfuel : ∀ p pr, unprocCount dom pr < fuel → recurse p pr ≠ .error .fuelOut) :
    ∀ (ms : List ImportMatch) (result : Chars) (lastEnd : Nat) (pr : List MPath),
      unprocCount dom pr ≤ fuel →
      processMatches env recurse release sysPath parentDir content ms result lastEnd pr
        ≠ .error .fuelOut := by
  intro ms
  induction ms with
  | nil => intro result lastEnd pr _; simp [processMatches]
  | cons m rest ih =>
    intro result lastEnd pr hcnt h
    rw [processMatches] at h
    split at h
    · rename_i e heq
      simp only [Except.error.injEq] at h
      rw [h] at heq
      simp [checkedSlice] at heq
      split at heq <;> simp_all
    · split at h
      · rename_i e heq
        simp only [Except.error.injEq] at h
        exact tryCandidates_ne_fuelOut env recurse release m.indent m.moduleRef dom fuel
          hdom hrecfuel _ _ pr hcnt (h ▸ heq)
      · rename_i found2 result2 processed2 heq
        have hsub := tryCandidates_mono env recurse release m.indent m.moduleRef hrec
          _ _ _ _ heq
        exact ih _ _ _ (le_trans (unprocCount_mono dom pr processed2 hsub) hcnt) h

theorem inlineImports_ne_fuelOut (env : FSEnv) (sysPath : List MPath)
    (prefixes : List Chars) (release : Bool) (dom : List MPath)
    (hdom : ∀ p, env.exists? p = .ok true → p ∈ dom) :
    ∀ (fuel : Nat) (file : MPath) (pr : List MPath),
      unprocCount dom pr < fuel →
      inlineImports env sysPath prefixes release fuel file pr ≠ .error .fuelOut := by
  intro fuel
  induction fuel with
  | zero => intro file pr hcnt; omega
  | succ fuel ih =>
    intro file pr hcnt h
    rw [inlineImports] at h
    split at h
    · simp at h
    · rename_i content hread
      simp only [] at h
      split at h
      · rename_i e heq
        simp only [Except.error.injEq] at h
        subst h
        exact processMatches_ne_fuelOut env
          (inlineImports env sysPath prefixes release fuel) release sysPath
          (parentp file) (skipBlocks content (findTypeCheckingBlocks content)) dom fuel hdom
          (fun p pr2 res2 hr => inlineImports_mono env sysPath prefixes release fuel p pr2 res2 hr)
          (fun p pr2 hlt => ih p pr2 hlt)
          (findImports prefixes (skipBlocks content (findTypeCheckingBlocks content)))
          [] 0 pr (by omega) heq
      · simp at h

end TerminationLemmas

/-- C1: the recursive inliner terminates on every finite filesystem.
`dom` is any finite list covering all paths whose existence test
succeeds; whenever the fuel exceeds the number of such paths not yet in
the processed set, the run never exhausts its fuel — because a resolved
path is inserted into the processed set immediately before the
recursive call, entries are never removed, and recursion only happens
into paths that exist and are not yet processed, so the unprocessed
count strictly decreases with every level of recursion (in particular,
cyclic import graphs terminate). -/
theorem C1_termination (env : FSEnv) (sysPath : List MPath) (prefixes : List Chars)
    (release : Bool) (dom : List MPath)
    (hdom : ∀ p, env.exists? p = .ok true → p ∈ dom)
    (fuel : Nat) (file : MPath) (processed : List MPath)
    (hfuel : unprocCount dom processed < fuel) :
    inlineImports env sysPath prefixes release fuel file processed ≠ .error .fuelOut :=
  inlineImports_ne_fuelOut env sysPath prefixes release dom hdom fuel file processed hfuel

/-- C1 witness: a cyclic import graph — `a.py` imports `.b` and
`b.py` imports `.a` — run with fuel exceeding the filesystem size; the
run completes without exhausting the fuel. -/
theorem C1_witness :
    unprocCount (domOf [([str "test", str "a.py"], str "from .b import x\n"),
        ([str "test", str "b.py"], str "from .a import y\n")]) [] < 3 ∧
    inlineImports
        (mkEnv [([str "test", str "a.py"], str "from .b import x\n"),
          ([str "test", str "b.py"], str "from .a import y\n")])
        [] [str "."] false 3 [str "test", str "a.py"] []
      ≠ .error .fuelOut :=
  ⟨by decide,
    C1_termination
      (mkEnv [([str "test", str "a.py"], str "from .b import x\n"),
        ([str "test", str "b.py"], str "from .a import y\n")])
      [] [str "."] false
      (domOf [([str "test", str "a.py"], str "from .b import x\n"),
        ([str "test", str "b.py"], str "from .a import y\n")])
      (mkEnv_exists_dom _) 3 [str "test", str "a.py"] [] (by decide)⟩

/-- Spec-side resolution: walk the candidate list in order and return
the first hit — the package form `<path>/__init__.py` is tested before
the plain-module form `<path>.py` within each candidate; the Boolean
records which form won. -/
def resolveFirst (E : MPath → Bool) : List MPath → Option (Bool × MPath)
  | [] => none
  | c :: rest =>
    if E (initPath c) then some (true, initPath c)
    else if E (withExtPy c) then some (false, withExtPy c)
    else resolveFirst E rest

/-- The candidate-probing loop coincides with the first-match
resolution, provided the existence test is total (never an I/O error):
no candidate hit leaves the buffer and set untouched with `found =
false`; a hit on an already-processed path emits only the
already-inlined marker (nothing in release mode) and leaves the set
unchanged; a hit on a fresh path inserts it and recurses, wrapping the
re-indented result in markers unless in release mode. -/
theorem tryCandidates_characterization (env : FSEnv) (E : MPath → Bool)
    (hE : ∀ p, env.exists? p = .ok (E p))
    (recurse : MPath → List MPath → Except Fail (Chars × List MPath))
    (release : Bool) (ind sub : Chars) :
    ∀ (cands : List MPath) (result : Chars) (pr : List MPath),
      tryCandidates env recurse release ind sub cands result pr
        = match resolveFirst E cands with
          | none => .ok (false, result, pr)
          | some (isPkg, target) =>
            if pr.contains target then
              .ok (true,
                (if !release then
                  result ++ ind ++ str "# →→ " ++ sub
                    ++ (if isPkg then str " ←← package already inlined\n"
                        else str " ←← module already inlined\n")
                else result), pr)
            else
              match recurse target (target :: pr) with
              | .error e => .error e
              | .ok (tcontent, pr2) =>
                .ok (true,
                  (if !release then
                    result ++ ind
                      ++ (if isPkg then str "# ↓↓↓ inlined package: "
                          else str "# ↓↓↓ inlined submodule: ") ++ sub ++ ['\n']
                  else result)
                  ++ reindent ind tcontent ++ ['\n']
                  ++ (if !release then
                      ind ++ (if isPkg then str "# ↑↑↑ inlined package: "
                          else str "# ↑↑↑ inlined submodule: ") ++ sub ++ ['\n']
                    else []), pr2) := by
  intro cands
  induction cands with
  | nil => intro result pr; simp [tryCandidates, resolveFirst]
  | cons mp rest ih =>
    intro result pr
    rw [tryCandidates, resolveFirst, hE (initPath mp), hE (withExtPy mp)]
    by_cases h1 : E (initPath mp) = true
    · simp only [h1, if_true]
    · have h1f : E (initPath mp) = false := by revert h1; cases E (initPath mp) <;> simp
      by_cases h2 : E (withExtPy mp) = true
      · simp only [h1f, h2, Bool.false_eq_true, if_false, if_true]
      · have h2f : E (withExtPy mp) = false := by revert h2; cases E (withExtPy mp) <;> simp
        simp only [h1f, h2f, Bool.false_eq_true, if_false]
        exact ih result pr

/-- C2 (amended): when a match's module reference resolves to a path
already in the processed set, the per-match step emits only the
unmatched content up to the match start followed by the single marker
line `<indent># →→ <moduleRef> ←← package already inlined` (or
`... ←← module already inlined` for the plain-module form) — nothing at
all in release mode — the processed set is unchanged, no recursive
inlining happens (so the file body is never duplicated), and the cursor
jumps to the extended end of the statement, dropping the original
statement text of the import in both modes. -/
theorem C2_already_inlined (env : FSEnv) (E : MPath → Bool)
    (hE : ∀ p, env.exists? p = .ok (E p))
    (recurse : MPath → List MPath → Except Fail (Chars × List MPath))
    (release : Bool) (sysPath : List MPath) (parentDir : MPath) (content : Chars)
    (m : ImportMatch) (rest : List ImportMatch) (result : Chars) (lastEnd : Nat)
    (pr : List MPath) (isPkg : Bool) (target : MPath)
    (hres : resolveFirst E (candidatePaths sysPath parentDir m.moduleRef)
      = some (isPkg, target))
    (htarget : target ∈ pr)
    (hle : lastEnd ≤ m.start) (hbound : m.start ≤ content.length) :
    processMatches env recurse release sysPath parentDir content (m :: rest) result lastEnd pr
      = processMatches env recurse release sysPath parentDir content rest
          (if !release then
            (result ++ (content.drop lastEnd).take (m.start - lastEnd)) ++ m.indent
              ++ str "# →→ " ++ m.moduleRef
              ++ (if isPkg then str " ←← package already inlined\n"
                  else str " ←← module already inlined\n")
          else result ++ (content.drop lastEnd).take (m.start - lastEnd))
          (extendEnd content m) pr := by
  rw [processMatches]
  have hcs : checkedSlice content lastEnd m.start
      = .ok ((content.drop lastEnd).take (m.start - lastEnd)) := by
    simp [checkedSlice, hle, hbound]
  rw [hcs]
  simp only []
  rw [tryCandidates_characterization env E hE recurse release m.indent m.moduleRef, hres]
  have hcon : pr.contains target = true := by
    simp [List.contains, List.elem_eq_mem, htarget]
  simp only [hcon, if_true]

/-- C2 counterexample: a file importing `.m` twice; the second reference
is emitted as the single line `# →→ .m ←← module already inlined` — the
word `module` (or `package`) appears before `already inlined` — so the
output does not contain the claim's marker `# →→ .m ←← already
inlined`; the module body `x = 1` appears only once. -/
theorem C2_counterexample :
    inlineImports
        (mkEnv [([str "t", str "main.py"], str "from .m import a\nfrom .m import b\n"),
          ([str "t", str "m.py"], str "x = 1\n")])
        [] [str "."] false 3 [str "t", str "main.py"] []
      = .ok (str "# ↓↓↓ inlined submodule: .m\nx = 1\n\n# ↑↑↑ inlined submodule: .m\n# →→ .m ←← module already inlined\n",
          [[str "t", str "m.py"]]) ∧
    str "# →→ .m ←← module already inlined"
      ∈ rustLines (str "# ↓↓↓ inlined submodule: .m\nx = 1\n\n# ↑↑↑ inlined submodule: .m\n# →→ .m ←← module already inlined\n") ∧
    str "# →→ .m ←← already inlined"
      ∉ rustLines (str "# ↓↓↓ inlined submodule: .m\nx = 1\n\n# ↑↑↑ inlined submodule: .m\n# →→ .m ←← module already inlined\n") := by
  decide

/-- C2 witness: the already-inlined step applied to the second
`.m` import of a file whose resolved path is already processed. -/
theorem C2_witness :
    processMatches
        (mkEnv [([str "t", str "main.py"], str "from .m import a\nfrom .m import b\n"),
          ([str "t", str "m.py"], str "x = 1\n")])
        (fun _ pr => .ok ([], pr)) false [] [str "t"]
        (str "from .m import a\nfrom .m import b\n")
        [⟨17, [], str ".m", str "b", str "from .m import b"⟩] [] 17 [[str "t", str "m.py"]]
      = processMatches
          (mkEnv [([str "t", str "main.py"], str "from .m import a\nfrom .m import b\n"),
            ([str "t", str "m.py"], str "x = 1\n")])
          (fun _ pr => .ok ([], pr)) false [] [str "t"]
          (str "from .m import a\nfrom .m import b\n") []
          (if !false then
            (([] : Chars) ++ ((str "from .m import a\nfrom .m import b\n").drop 17).take (17 - 17))
              ++ ([] : Chars) ++ str "# →→ " ++ str ".m"
              ++ (if false then str " ←← package already inlined\n"
                  else str " ←← module already inlined\n")
          else ([] : Chars) ++ ((str "from .m import a\nfrom .m import b\n").drop 17).take (17 - 17))
          (extendEnd (str "from .m import a\nfrom .m import b\n")
            ⟨17, [], str ".m", str "b", str "from .m import b"⟩)
          [[str "t", str "m.py"]] :=
  C2_already_inlined
    (mkEnv [([str "t", str "main.py"], str "from .m import a\nfrom .m import b\n"),
      ([str "t", str "m.py"], str "x = 1\n")])
    (fun p => (domOf [([str "t", str "main.py"], str "from .m import a\nfrom .m import b\n"),
      ([str "t", str "m.py"], str "x = 1\n")]).any (fun k => k = p))
    (fun _ => rfl)
    (fun _ pr => .ok ([], pr)) false [] [str "t"]
    (str "from .m import a\nfrom .m import b\n")
    ⟨17, [], str ".m", str "b", str "from .m import b"⟩ [] [] 17
    [[str "t", str "m.py"]] false [str "t", str "m.py"]
    (by decide) (by decide) (by decide) (by decide)

/-- C4: module resolution precedence.  The search path built by `run`
puts the entry file's directory first; a dotted module reference yields
the single candidate relative to the current file's directory (leading
dots stripped, remaining dots becoming path separators); a non-dotted
reference yields one candidate per search root in order; and the
probing loop returns the first candidate hit, testing the package form
`<path>/__init__.py` before the plain-module form `<path>.py` within
each root (assuming the existence test is total). -/
theorem C4_resolution (inputFile : MPath) (sysPath : List MPath) (parentDir : MPath)
    (submodule : Chars) (env : FSEnv) (E : MPath → Bool)
    (hE : ∀ p, env.exists? p = .ok (E p))
    (recurse : MPath → List MPath → Except Fail (Chars × List MPath))
    (release : Bool) (ind sub : Chars) :
    runSearchPath inputFile sysPath = parentp inputFile :: sysPath
    ∧ (submodule.head? = some '.' →
        candidatePaths sysPath parentDir submodule
          = [pjoin parentDir (dotsToSlashes (stripLeadingDots submodule))])
    ∧ (submodule.head? ≠ some '.' →
        candidatePaths sysPath parentDir submodule
          = sysPath.map (fun p => pjoin p (dotsToSlashes submodule)))
    ∧ (∀ (cands : List MPath) (result : Chars) (pr : List MPath),
        tryCandidates env recurse release ind sub cands result pr
          = match resolveFirst E cands with
            | none => .ok (false, result, pr)
            | some (isPkg, target) =>
              if pr.contains target then
                .ok (true,
                  (if !release then
                    result ++ ind ++ str "# →→ " ++ sub
                      ++ (if isPkg then str " ←← package already inlined\n"
                          else str " ←← module already inlined\n")
                  else result), pr)
              else
                match recurse target (target :: pr) with
                | .error e => .error e
                | .ok (tcontent, pr2) =>
                  .ok (true,
                    (if !release then
                      result ++ ind
                        ++ (if isPkg then str "# ↓↓↓ inlined package: "
                            else str "# ↓↓↓ inlined submodule: ") ++ sub ++ ['\n']
                    else result)
                    ++ reindent ind tcontent ++ ['\n']
                    ++ (if !release then
                        ind ++ (if isPkg then str "# ↑↑↑ inlined package: "
                            else str "# ↑↑↑ inlined submodule: ") ++ sub ++ ['\n']
                      else []), pr2)) := by
  refine ⟨rfl, ?_, ?_, tryCandidates_characterization env E hE recurse release ind sub⟩
  · intro h
    simp [candidatePaths, h]
  · intro h
    simp only [candidatePaths]
    rw [if_neg]
    intro hc
    exact h hc

/-- C4 witness: with one file `r2/mylib/util.py`, the reference
`mylib.util` probed over the roots `[r1, r2]` resolves at the second
root in plain-module form and inlines the file's body between
markers. -/
theorem C4_witness :
    tryCandidates (mkEnv [([str "r2", str "mylib", str "util.py"], str "def helper(): pass\n")])
        (fun _ pr => .ok (str "def helper(): pass\n", pr)) false [] (str "mylib.util")
        (candidatePaths [[str "r1"], [str "r2"]] [str "e"] (str "mylib.util")) [] []
      = .ok (true,
          str "# ↓↓↓ inlined submodule: mylib.util\ndef helper(): pass\n\n# ↑↑↑ inlined submodule: mylib.util\n",
          [[str "r2", str "mylib", str "util.py"]]) := by
  rw [(C4_resolution [str "e", str "x.py"] [[str "r1"], [str "r2"]] [str "e"]
      (str "mylib.util")
      (mkEnv [([str "r2", str "mylib", str "util.py"], str "def helper(): pass\n")])
      (fun p => (domOf [([str "r2", str "mylib", str "util.py"],
        str "def helper(): pass\n")]).any (fun k => k = p))
      (fun _ => rfl)
      (fun _ pr => .ok (str "def helper(): pass\n", pr)) false [] (str "mylib.util")).2.2.2
      (candidatePaths [[str "r1"], [str "r2"]] [str "e"] (str "mylib.util")) [] []]
  decide

/-- Spec-side parenthesis depth: starting from `d`, add one per `'('`
and subtract one per `')'` (never reaching below zero along scans whose
intermediate depths stay positive). -/
def netDepth (d : Nat) : Chars → Nat
  | [] => d
  | c :: cs => netDepth (if c = '(' then d + 1 else if c = ')' then d - 1 else d) cs

theorem parenScan_some_gt (l : Chars) :
    ∀ (d s v : Nat), parenScan d s l = some v → s < v := by
  induction l with
  | nil => intro d s v h; simp [parenScan] at h
  | cons c cs ih =>
    intro d s v h
    rw [parenScan] at h
    split at h
    · have := ih _ _ _ h; omega
    · split at h
      · split at h
        · simp at h; omega
        · have := ih _ _ _ h; omega
      · have := ih _ _ _ h; omega

theorem parenScan_iff_aux (l : Chars) :
    ∀ (d s : Nat), 0 < d → ∀ k : Nat,
      (parenScan d s l = some (s + (k + 1)) ↔
        (k + 1 ≤ l.length ∧ netDepth d (l.take (k + 1)) = 0 ∧
          ∀ j < k + 1, 0 < netDepth d (l.take j))) := by
  induction l with
  | nil =>
    intro d s hd k
    simp [parenScan]
  | cons c cs ih =>
    intro d s hd k
    by_cases hstop : c = ')' ∧ d = 1
    · obtain ⟨hc, hd1⟩ := hstop
      subst hc hd1
      have hps : parenScan 1 s (')' :: cs) = some (s + 1) := by
        simp [parenScan]
      rw [hps]
      cases k with
      | zero =>
        constructor
        · intro _
          refine ⟨by simp, by simp [netDepth], ?_⟩
          intro j hj
          interval_cases j
          simp [netDepth]
        · intro _
          simp
      | succ k2 =>
        constructor
        · intro h
          simp only [Option.some_inj] at h
          omega
        · rintro ⟨_, _, hall⟩
          have h1 := hall 1 (by omega)
          simp [netDepth] at h1
    · have hcont : parenScan d s (c :: cs)
          = parenScan (if c = '(' then d + 1 else if c = ')' then d - 1 else d) (s + 1) cs := by
        rw [parenScan]
        by_cases hc : c = '('
        · simp [hc]
        · by_cases hc2 : c = ')'
          · have hd1 : d ≠ 1 := fun h => hstop ⟨hc2, h⟩
            simp [hc, hc2, hd1]
          · simp [hc, hc2]
      have hdpos : 0 < (if c = '(' then d + 1 else if c = ')' then d - 1 else d) := by
        by_cases hc : c = '('
        · simp [hc]
        · by_cases hc2 : c = ')'
          · have hd1 : d ≠ 1 := fun h => hstop ⟨hc2, h⟩
            simp [hc, hc2]
            omega
          · simp [hc, hc2, hd]
      rw [hcont]
      cases k with
      | zero =>
        constructor
        · intro h
          have := parenScan_some_gt cs _ _ _ h
          omega
        · rintro ⟨_, hnd, _⟩
          exfalso
          have : (c :: cs).take 1 = [c] := by simp
          rw [this] at hnd
          simp only [netDepth] at hnd
          omega
      | succ k2 =>
        have heq : s + (k2 + 1 + 1) = (s + 1) + (k2 + 1) := by omega
        rw [heq, ih _ (s + 1) hdpos k2]
        have htake : ∀ j : Nat, (c :: cs).take (j + 1) = c :: cs.take j := fun j => by simp
        constructor
        · rintro ⟨h1, h2, h3⟩
          refine ⟨by simp; omega, ?_, ?_⟩
          · rw [htake (k2 + 1)]
            simp only [netDepth]
            exact h2
          · intro j hj
            cases j with
            | zero => simpa [netDepth] using hd
            | succ j2 =>
              rw [htake j2]
              simp only [netDepth]
              exact h3 j2 (by omega)
        · rintro ⟨h1, h2, h3⟩
          refine ⟨by simp at h1; omega, ?_, ?_⟩
          · rw [htake (k2 + 1)] at h2
            simpa [netDepth] using h2
          · intro j hj
            have := h3 (j + 1) (by omega)
            rw [htake j] at this
            simpa [netDepth] using this

theorem parenScan_iff (rem : Chars) (k : Nat) :
    parenScan 1 0 rem = some k ↔
      (0 < k ∧ k ≤ rem.length ∧ netDepth 1 (rem.take k) = 0 ∧
        ∀ j < k, 0 < netDepth 1 (rem.take j)) := by
  cases k with
  | zero =>
    constructor
    · intro h
      have := parenScan_some_gt rem 1 0 0 h
      omega
    · rintro ⟨h, _⟩
      omega
  | succ k2 =>
    have := parenScan_iff_aux rem 1 0 (by omega) k2
    simp only [Nat.zero_add] at this
    rw [this]
    constructor
    · rintro ⟨h1, h2, h3⟩
      exact ⟨by omega, h1, h2, h3⟩
    · rintro ⟨_, h1, h2, h3⟩
      exact ⟨h1, h2, h3⟩

/-- C5: multi-line import spans.  The closing-parenthesis scan returns
`k` exactly when `k` is the first position at which the parenthesis
depth (starting at 1 for the already-seen opening parenthesis, +1 per
`'('`, −1 per `')'`) returns to zero — so nesting is accounted for;
when the matched line ends with `'('` after trimming trailing
whitespace, the statement's span extends to that matching closing
parenthesis plus any trailing line terminator; and on successful
inlining the per-match step emits only the content before the match
start followed by the inlined block, with the cursor jumping to the
extended end — the entire multi-line statement (names, closing
parenthesis, terminator) is dropped. -/
theorem C5_multiline_import (env : FSEnv) (E : MPath → Bool)
    (hE : ∀ p, env.exists? p = .ok (E p))
    (recurse : MPath → List MPath → Except Fail (Chars × List MPath))
    (release : Bool) (sysPath : List MPath) (parentDir : MPath) (content : Chars)
    (m : ImportMatch) (rest : List ImportMatch) (result : Chars) (lastEnd : Nat)
    (pr : List MPath) (isPkg : Bool) (target : MPath) :
    (∀ (rem : Chars) (k : Nat),
      parenScan 1 0 rem = some k ↔
        (0 < k ∧ k ≤ rem.length ∧ netDepth 1 (rem.take k) = 0 ∧
          ∀ j < k, 0 < netDepth 1 (rem.take j)))
    ∧ ((trimEndC m.line).getLast? = some '(' →
        ∀ k, parenScan 1 0 (content.drop m.matchEnd) = some k →
        extendEnd content m
          = (if (content.drop (m.matchEnd + k)).head? = some '\n' then m.matchEnd + k + 1
            else if (content.drop (m.matchEnd + k)).take 2 = str "\r\n" then m.matchEnd + k + 2
            else m.matchEnd + k))
    ∧ (resolveFirst E (candidatePaths sysPath parentDir m.moduleRef) = some (isPkg, target) →
        target ∉ pr → lastEnd ≤ m.start → m.start ≤ content.length →
        processMatches env recurse release sysPath parentDir content (m :: rest) result
            lastEnd pr
          = match recurse target (target :: pr) with
            | .error e => .error e
            | .ok (tc, pr2) =>
              processMatches env recurse release sysPath parentDir content rest
                ((if !release then
                    (result ++ (content.drop lastEnd).take (m.start - lastEnd)) ++ m.indent
                      ++ (if isPkg then str "# ↓↓↓ inlined package: "
                          else str "# ↓↓↓ inlined submodule: ")
                      ++ m.moduleRef ++ ['\n']
                  else result ++ (content.drop lastEnd).take (m.start - lastEnd))
                  ++ reindent m.indent tc ++ ['\n']
                  ++ (if !release then
                      m.indent ++ (if isPkg then str "# ↑↑↑ inlined package: "
                          else str "# ↑↑↑ inlined submodule: ")
                        ++ m.moduleRef ++ ['\n']
                    else []))
                (extendEnd content m) pr2) := by
  refine ⟨parenScan_iff, ?_, ?_⟩
  · intro htrim k hscan
    simp only [extendEnd, htrim, hscan, if_pos rfl]
    simp
  · intro hres htarget hle hbound
    rw [processMatches]
    have hcs : checkedSlice content lastEnd m.start
        = .ok ((content.drop lastEnd).take (m.start - lastEnd)) := by
      simp [checkedSlice, hle, hbound]
    rw [hcs]
    simp only []
    rw [tryCandidates_characterization env E hE recurse release m.indent m.moduleRef, hres]
    have hcon : pr.contains target = false := by
      simp [List.contains, List.elem_eq_mem, htarget]
    simp only [hcon, Bool.false_eq_true, if_false]
    cases hrec : recurse target (target :: pr) with
    | error e => simp
    | ok tp =>
      obtain ⟨tc, pr2⟩ := tp
      simp

/-- C5 witness: the span-extension fact applied to the repository's own
multi-line-import scenario `from mylib.environment import ( ... )`: the
paren scan finds the closing parenthesis after 47 characters and the
span extends past it and the following newline, to offset 79. -/
theorem C5_witness :
    extendEnd
        (str "from mylib.environment import (\n    API_KEY,\n    ANOTHER_KEY,\n    THIRD_KEY,\n)\n\ndef my_function():\n    return API_KEY\n")
        ⟨0, [], str "mylib.environment", str "(", str "from mylib.environment import ("⟩
      = 79 := by
  rw [(C5_multiline_import (mkEnv []) (fun _ => false) (fun _ => rfl)
      (fun _ pr => .ok ([], pr)) false [] []
      (str "from mylib.environment import (\n    API_KEY,\n    ANOTHER_KEY,\n    THIRD_KEY,\n)\n\ndef my_function():\n    return API_KEY\n")
      ⟨0, [], str "mylib.environment", str "(", str "from mylib.environment import ("⟩
      [] [] 0 [] false []).2.1 (by decide) 47 (by decide)]
  decide

/-- C10: during module resolution the existence tests are `.unwrap()`ed:
if the storage provider's existence check fails for a candidate
`__init__.py` path (or, that test returning `ok false`, for the
candidate `.py` path), the probing loop panics rather than propagating
the error; lifted to a whole run, `inline_imports` on a filesystem
whose existence check fails yields the panic outcome, which is distinct
from the I/O-error outcome that the function's `Result` type would
carry. -/
theorem C10_exists_unwrap_panics :
    (∀ (env : FSEnv) (recurse : MPath → List MPath → Except Fail (Chars × List MPath))
        (release : Bool) (ind sub : Chars) (mp : MPath) (rest : List MPath)
        (result : Chars) (pr : List MPath),
      env.exists? (initPath mp) = .error () →
      tryCandidates env recurse release ind sub (mp :: rest) result pr = .error .panicked)
    ∧ (∀ (env : FSEnv) (recurse : MPath → List MPath → Except Fail (Chars × List MPath))
        (release : Bool) (ind sub : Chars) (mp : MPath) (rest : List MPath)
        (result : Chars) (pr : List MPath),
      env.exists? (initPath mp) = .ok false →
      env.exists? (withExtPy mp) = .error () →
      tryCandidates env recurse release ind sub (mp :: rest) result pr = .error .panicked)
    ∧ inlineImports
        ⟨fun p => if p = [str "t", str "a.py"] then .ok (str "from .b import x\n")
          else .error (),
         fun _ => .error ()⟩
        [] [str "."] false 2 [str "t", str "a.py"] []
      = .error .panicked
    ∧ (Fail.panicked ≠ Fail.io) := by
  refine ⟨?_, ?_, by decide, by decide⟩
  · intro env recurse release ind sub mp rest result pr hex
    rw [tryCandidates, hex]
  · intro env recurse release ind sub mp rest result pr hex1 hex2
    rw [tryCandidates, hex1, hex2]

/-- C10 witness: the first conjunct applied to the concrete failing
environment, its candidate, and an arbitrary recursion function. -/
theorem C10_witness :
    tryCandidates
        ⟨fun p => if p = [str "t", str "a.py"] then .ok (str "from .b import x\n")
          else .error (),
         fun _ => .error ()⟩
        (fun _ pr => .ok ([], pr)) false [] (str ".b")
        [[str "t", str "b"]] [] []
      = .error .panicked :=
  C10_exists_unwrap_panics.1
    ⟨fun p => if p = [str "t", str "a.py"] then .ok (str "from .b import x\n")
      else .error (),
     fun _ => .error ()⟩
    (fun _ pr => .ok ([], pr)) false [] (str ".b")
    [str "t", str "b"] [] [] [] rfl

/-- ASCII word character, for the regex class `\w`. -/
def isWordChar (c : Char) : Bool := c.isAlpha || c.isDigit || c = '_'

/-- Identifier start, for the regex class `[a-zA-Z_]`. -/
def isIdentStart (c : Char) : Bool := c.isAlpha || c = '_'

/-- The import-line regex of `post_process_imports` (src/main.rs lines
431-433): `^\s*(?:from\s+[a-zA-Z_][\w.]*\s+import\s+|import\s+[a-zA-Z_][\w.,\s*]+)`.
The character runs are maximal, so the regex match is deterministic. -/
def matchesImportRegex (line : Chars) : Bool :=
  let r := line.dropWhile isWs
  (match dropLit (str "from") r with
    | none => false
    | some r1 =>
      let ws1 := (r1.takeWhile isWs).length
      if ws1 = 0 then false
      else
        match r1.drop ws1 with
        | [] => false
        | c :: cs =>
          if !isIdentStart c then false
          else
            let run := cs.dropWhile (fun d => isWordChar d || d = '.')
            let ws2 := (run.takeWhile isWs).length
            if ws2 = 0 then false
            else
              match dropLit (str "import") (run.drop ws2) with
              | none => false
              | some r2 => !(r2.takeWhile isWs).isEmpty)
  || (match dropLit (str "import") r with
    | none => false
    | some r1 =>
      let ws1 := (r1.takeWhile isWs).length
      if ws1 = 0 then false
      else
        match r1.drop ws1 with
        | c :: c2 :: _ =>
          isIdentStart c && (isWordChar c2 || c2 = '.' || c2 = ',' || c2 = '*' || isWs c2)
        | _ => false)

/-- The JavaScript-import filter regex of `post_process_imports`
(src/main.rs lines 436-438): `^\s*import\s+[\w.*]+\s+from\s+['"]`. -/
def jsFilter (line : Chars) : Bool :=
  let r := line.dropWhile isWs
  match dropLit (str "import") r with
  | none => false
  | some r1 =>
    let ws1 := (r1.takeWhile isWs).length
    if ws1 = 0 then false
    else
      let r2 := r1.drop ws1
      let tok := r2.takeWhile (fun d => isWordChar d || d = '.' || d = '*')
      if tok.isEmpty then false
      else
        let r3 := r2.drop tok.length
        let ws2 := (r3.takeWhile isWs).length
        if ws2 = 0 then false
        else
          match dropLit (str "from") (r3.drop ws2) with
          | none => false
          | some r4 =>
            let ws3 := (r4.takeWhile isWs).length
            if ws3 = 0 then false
            else
              match r4.drop ws3 with
              | '\'' :: _ => true
              | '"' :: _ => true
              | _ => false

/-- The shebang regex `^#!`. -/
def isShebang (line : Chars) : Bool :=
  match line with
  | '#' :: '!' :: _ => true
  | _ => false

/-- The inline-script-metadata start regex `^#\s*///` (src/main.rs line
441), applied to an already-trimmed line. -/
def pep723Start (l : Chars) : Bool :=
  match l with
  | '#' :: rest => (dropLit (str "///") (rest.dropWhile isWs)).isSome
  | _ => false

/-- Substring test, for Rust `str::contains`. -/
def containsSub (pat : Chars) : Chars → Bool
  | [] => (dropLit pat ([] : Chars)).isSome
  | c :: rest => (dropLit pat (c :: rest)).isSome || containsSub pat rest

/-- The metadata-block extraction loop of `post_process_imports`
(src/main.rs lines 458-480): push lines into the header until the bare
end marker `# ///` (or `#///`) is reached with a nonempty header; the
end-marker line itself joins the header. -/
def pepLoop (header : List Chars) : List Chars → List Chars × List Chars
  | [] => (header, [])
  | line :: rest =>
    if pep723Start (trimStartC line)
        && (trimStartC line = str "# ///" || trimStartC line = str "#///")
        && !header.isEmpty then
      (header ++ [line], rest)
    else pepLoop (header ++ [line]) rest

/-- Header extraction of `post_process_imports` (src/main.rs lines
443-482): split off a leading shebang line (followed by a literal
`"\n"` header element) and then a metadata block. -/
def ppSplitHeader (content : Chars) : List Chars × List Chars :=
  let lines := rustLines content
  let hl :=
    match lines with
    | [] => (([] : List Chars), ([] : List Chars))
    | first :: restL =>
      if isShebang first then ([first, ['\n']], restL) else ([], lines)
  match hl.2 with
  | [] => hl
  | first :: _ =>
    if pep723Start (trimStartC first) then pepLoop hl.1 hl.2 else hl

/-- Classification loop of `post_process_imports` (src/main.rs lines
484-490): import-regex lines not matching the JavaScript filter go into
the deduplicated import set (trimmed at the start); everything else is
kept, in order, as other content. -/
def classifyLines : List Chars → List Chars → List Chars → List Chars × List Chars
  | [], imps, others => (imps, others)
  | l :: rest, imps, others =>
    if matchesImportRegex l && !jsFilter l then
      classifyLines rest (if trimStartC l ∈ imps then imps else imps ++ [trimStartC l]) others
    else classifyLines rest imps (others ++ [l])

/-- Lexicographic order on character lists by code point — the order of
Rust's `Vec::<String>::sort()` (UTF-8 byte order coincides with code
point order). -/
def lexLe : Chars → Chars → Bool
  | [], _ => true
  | _ :: _, [] => false
  | a :: as, b :: bs =>
    if a < b then true
    else if b < a then false
    else lexLe as bs

/-- Insert into a sorted list (used to model `Vec::sort`: on the
deduplicated import set the sorted permutation is unique, so any
correct sort computes the same list as Rust's). -/
def insertSorted (x : Chars) : List Chars → List Chars
  | [] => [x]
  | y :: ys => if lexLe x y then x :: y :: ys else y :: insertSorted x ys

/-- Sort the import lines lexicographically. -/
def sortImports : List Chars → List Chars
  | [] => []
  | x :: xs => insertSorted x (sortImports xs)

/-- The deduplicated imports of the body, sorted. -/
def ppSortedImports (content : Chars) : List Chars :=
  sortImports (classifyLines (ppSplitHeader content).2 [] []).1

/-- The non-import body lines, in order. -/
def ppOthers (content : Chars) : List Chars :=
  (classifyLines (ppSplitHeader content).2 [] []).2

/-- Whether the extracted header contains a metadata-block marker
(`header_content.iter().any(|line| line.contains("# ///"))`). -/
def ppHasPep (content : Chars) : Bool :=
  (ppSplitHeader content).1.any (containsSub (str "# ///"))

/-- Embedding of `post_process_imports` (src/main.rs lines 422-515). -/
def postProcessImports (content : Chars) : Chars :=
  List.intercalate (str "\n") (ppSplitHeader content).1
    ++ (if !(ppSortedImports content).isEmpty then
          (if ppHasPep content then ['\n'] else [])
            ++ List.intercalate (str "\n") (ppSortedImports content) ++ ['\n']
        else if ppHasPep content then ['\n'] else [])
    ++ List.intercalate (str "\n") (ppOthers content) ++ ['\n']

section ImportSortLemmas

theorem lexLe_total : ∀ a b : Chars, lexLe a b || lexLe b a := by
  intro a
  induction a with
  | nil => intro b; simp [lexLe]
  | cons x xs ih =>
    intro b
    cases b with
    | nil => simp [lexLe]
    | cons y ys =>
      rcases lt_trichotomy x y with h | h | h
      · simp [lexLe, h]
      · subst h
        simp only [lexLe, lt_irrefl, if_false]
        exact ih ys
      · simp [lexLe, h, lt_asymm h]

theorem lexLe_trans : ∀ a b c : Chars, lexLe a b → lexLe b c → lexLe a c := by
  intro a
  induction a with
  | nil => intro b c _ _; simp [lexLe]
  | cons x xs ih =>
    intro b c hab hbc
    cases b with
    | nil => simp [lexLe] at hab
    | cons y ys =>
      cases c with
      | nil => simp [lexLe] at hbc
      | cons z zs =>
        simp only [lexLe] at hab hbc ⊢
        rcases lt_trichotomy x y with h1 | h1 | h1
        · rcases lt_trichotomy y z with h2 | h2 | h2
          · simp [lt_trans h1 h2]
          · subst h2; simp [h1]
          · rw [if_neg (lt_asymm h2), if_pos h2] at hbc
            simp at hbc
        · subst h1
          rcases lt_trichotomy x z with h2 | h2 | h2
          · simp [h2]
          · subst h2
            simp only [lt_irrefl, if_false] at hab hbc ⊢
            exact ih ys zs hab hbc
          · rw [if_neg (lt_asymm h2), if_pos h2] at hbc
            simp at hbc
        · rw [if_neg (lt_asymm h1), if_pos h1] at hab
          simp at hab

theorem classifyLines_others :
    ∀ (body imps others : List Chars),
      (classifyLines body imps others).2
        = others ++ body.filter (fun l => !(matchesImportRegex l && !jsFilter l)) := by
  intro body
  induction body with
  | nil => intro imps others; simp [classifyLines]
  | cons l rest ih =>
    intro imps others
    rw [classifyLines]
    by_cases h : (matchesImportRegex l && !jsFilter l) = true
    · rw [if_pos h, ih, List.filter_cons, if_neg (by simp [h])]
    · have hf : (matchesImportRegex l && !jsFilter l) = false := by
        revert h; cases (matchesImportRegex l && !jsFilter l) <;> simp
      rw [if_neg (by simp [hf]), ih, List.filter_cons, if_pos (by simp [hf])]
      simp

theorem classifyLines_imps_mem :
    ∀ (body imps others : List Chars) (x : Chars),
      x ∈ (classifyLines body imps others).1
        ↔ (x ∈ imps ∨ ∃ l ∈ body, (matchesImportRegex l && !jsFilter l) = true
            ∧ x = trimStartC l) := by
  intro body
  induction body with
  | nil =>
    intro imps others x
    simp [classifyLines]
  | cons l rest ih =>
    intro imps others x
    rw [classifyLines]
    by_cases h : (matchesImportRegex l && !jsFilter l) = true
    · rw [if_pos h, ih]
      constructor
      · rintro (hx | hx)
        · by_cases hmem : trimStartC l ∈ imps
          · rw [if_pos hmem] at hx
            exact Or.inl hx
          · rw [if_neg hmem] at hx
            rcases List.mem_append.mp hx with h2 | h2
            · exact Or.inl h2
            · simp at h2
              exact Or.inr ⟨l, List.mem_cons_self l rest, h, h2⟩
        · obtain ⟨l2, hl2, hm, hx⟩ := hx
          exact Or.inr ⟨l2, List.mem_cons_of_mem l hl2, hm, hx⟩
      · rintro (hx | ⟨l2, hl2, hm, hx⟩)
        · left
          split
          · exact hx
          · exact List.mem_append.mpr (Or.inl hx)
        · rcases List.mem_cons.mp hl2 with rfl | hl2
          · left
            by_cases hmem : trimStartC l2 ∈ imps
            · rw [if_pos hmem]
              exact hx ▸ hmem
            · rw [if_neg hmem]
              exact List.mem_append.mpr (Or.inr (by simp [hx]))
          · exact Or.inr ⟨l2, hl2, hm, hx⟩
    · have hf : ¬ (matchesImportRegex l && !jsFilter l) = true := h
      rw [if_neg hf, ih]
      constructor
      · rintro (hx | ⟨l2, hl2, hm, hx⟩)
        · exact Or.inl hx
        · exact Or.inr ⟨l2, List.mem_cons_of_mem l hl2, hm, hx⟩
      · rintro (hx | ⟨l2, hl2, hm, hx⟩)
        · exact Or.inl hx
        · rcases List.mem_cons.mp hl2 with rfl | hl2
          · exact absurd hm hf
          · exact Or.inr ⟨l2, hl2, hm, hx⟩

theorem classifyLines_imps_nodup :
    ∀ (body imps others : List Chars), imps.Nodup →
      (classifyLines body imps others).1.Nodup := by
  intro body
  induction body with
  | nil => intro imps others h; simpa [classifyLines] using h
  | cons l rest ih =>
    intro imps others h
    rw [classifyLines]
    split
    · apply ih
      split
      · exact h
      · rename_i hmem
        simp only [List.nodup_append, List.nodup_cons, List.nodup_nil]
        exact ⟨h, by simp, by simpa using fun hx => hmem hx⟩
    · exact ih imps _ h

theorem insertSorted_perm (x : Chars) :
    ∀ l : List Chars, List.Perm (insertSorted x l) (x :: l) := by
  intro l
  induction l with
  | nil => simp [insertSorted]
  | cons y ys ih =>
    rw [insertSorted]
    split
    · exact List.Perm.refl _
    · exact (ih.cons y).trans (List.Perm.swap x y ys)

theorem sortImports_perm : ∀ l : List Chars, List.Perm (sortImports l) l := by
  intro l
  induction l with
  | nil => simp [sortImports]
  | cons x xs ih =>
    rw [sortImports]
    exact (insertSorted_perm x (sortImports xs)).trans (ih.cons x)

theorem insertSorted_sorted (x : Chars) :
    ∀ l : List Chars, l.Pairwise (fun a b => lexLe a b) →
      (insertSorted x l).Pairwise (fun a b => lexLe a b) := by
  intro l
  induction l with
  | nil => intro _; simp [insertSorted, List.Pairwise]
  | cons y ys ih =>
    intro h
    rcases List.pairwise_cons.mp h with ⟨hy, hys⟩
    rw [insertSorted]
    split
    · rename_i hxy
      refine List.Pairwise.cons ?_ h
      intro z hz
      rcases List.mem_cons.mp hz with rfl | hz
      · exact hxy
      · exact lexLe_trans x y z hxy (hy z hz)
    · rename_i hxy
      have hyx : lexLe y x := by
        have := lexLe_total x y
        revert this
        simp only [Bool.or_eq_true]
        rintro (h1 | h1)
        · exact absurd h1 hxy
        · exact h1
      refine List.Pairwise.cons ?_ (ih hys)
      intro z hz
      rcases List.mem_cons.mp ((insertSorted_perm x ys).mem_iff.mp hz) with rfl | h2
      · exact hyx
      · exact hy z h2

theorem sortImports_sorted :
    ∀ l : List Chars, (sortImports l).Pairwise (fun a b => lexLe a b) := by
  intro l
  induction l with
  | nil => simp [sortImports, List.Pairwise]
  | cons x xs ih =>
    rw [sortImports]
    exact insertSorted_sorted x (sortImports xs) ih

end ImportSortLemmas

/-- C8 (amended): `post_process_imports` deduplicates the body lines
classified as imports (as a set of start-trimmed lines), sorts them
lexicographically, keeps the other body lines in order, and reassembles
the file as: the header (shebang — which contributes a following blank
line — plus metadata block, newline-joined with the final header line
unterminated), then a newline-terminating separator if a metadata block
is present (this makes the import section adjacent to the block, not
blank-separated), then the sorted unique import lines, then — with no
intervening blank line — the remaining non-import content, with one
final newline appended (which yields a doubled newline when the
remaining content is empty). -/
theorem C8_post_process (content : Chars) :
    (postProcessImports content
      = List.intercalate (str "\n") (ppSplitHeader content).1
        ++ (if !(ppSortedImports content).isEmpty then
              (if ppHasPep content then ['\n'] else [])
                ++ List.intercalate (str "\n") (ppSortedImports content) ++ ['\n']
            else if ppHasPep content then ['\n'] else [])
        ++ List.intercalate (str "\n") (ppOthers content) ++ ['\n'])
    ∧ (ppSortedImports content).Pairwise (fun a b => lexLe a b)
    ∧ (ppSortedImports content).Nodup
    ∧ (∀ x, x ∈ ppSortedImports content ↔
        ∃ l ∈ (ppSplitHeader content).2,
          (matchesImportRegex l && !jsFilter l) = true ∧ x = trimStartC l)
    ∧ ppOthers content
      = (ppSplitHeader content).2.filter
          (fun l => !(matchesImportRegex l && !jsFilter l)) := by
  refine ⟨rfl, ?_, ?_, ?_, ?_⟩
  · exact sortImports_sorted _
  · exact (sortImports_perm _).symm.nodup
      (classifyLines_imps_nodup _ [] [] List.nodup_nil)
  · intro x
    unfold ppSortedImports
    rw [(sortImports_perm _).mem_iff, classifyLines_imps_mem]
    simp
  · have := classifyLines_others (ppSplitHeader content).2 [] []
    unfold ppOthers
    rw [this]
    simp

/-- C8 counterexample: the claim asserts a blank line between the
sorted imports and the remaining content, and a single trailing
newline.  On `"import os\nx = 1\n"` the output places `x = 1` directly
after the import with no blank line; and on `"import os\n"` (no
remaining content) the output ends with two newlines. -/
theorem C8_counterexample :
    postProcessImports (str "import os\nx = 1\n") = str "import os\nx = 1\n" ∧
    str "import os\nx = 1\n" ≠ str "import os\n\nx = 1\n" ∧
    postProcessImports (str "import os\n") = str "import os\n\n" := by decide

/-- The assignment pattern of `strip_docstrings` (src/main.rs line 523):
`^\s*[a-zA-Z_]\w*(\.[a-zA-Z_]\w*)*\s*=`.  The dotted-name groups and
word runs are forced, so the regex match is deterministic. -/
def assignTail : Nat → Chars → Bool
  | 0, _ => false
  | fuel + 1, '.' :: rest =>
    (match rest with
      | c :: cs => if isIdentStart c then assignTail fuel (cs.dropWhile isWordChar) else false
      | [] => false)
  | _, r => (r.dropWhile isWs).head? = some '='

/-- Head of the assignment pattern: optional whitespace then an
identifier, then the dotted tail ending in `=`.  The fuel argument,
set to the line length, only bounds the forced dotted-group recursion
(each group consumes at least two characters). -/
def assignmentMatch (l : Chars) : Bool :=
  match l.dropWhile isWs with
  | [] => false
  | c :: cs => if isIdentStart c then assignTail l.length (cs.dropWhile isWordChar) else false

/-- The import pattern of `strip_docstrings` (src/main.rs line 524):
`^\s*(from|import)\s+`. -/
def importPrefixMatch (l : Chars) : Bool :=
  let r := l.dropWhile isWs
  (match dropLit (str "from") r with
    | some r1 => !(r1.takeWhile isWs).isEmpty
    | none => false)
  || (match dropLit (str "import") r with
    | some r1 => !(r1.takeWhile isWs).isEmpty
    | none => false)

/-- The decorator pattern of `strip_docstrings` (src/main.rs line 525):
`^\s*@`. -/
def decoratorMatch (l : Chars) : Bool :=
  (l.dropWhile isWs).head? = some '@'

/-- The f-string test of `strip_docstrings` (src/main.rs lines 577-578):
the text before the opening quotes, trimmed at the end, ends in `f`. -/
def fStringBefore (l : Chars) : Bool :=
  (trimEndC l).getLast? = some 'f'

/-- The preservation test of `strip_docstrings` (src/main.rs lines
580-583). -/
def shouldPreserve (lineBefore : Chars) : Bool :=
  assignmentMatch lineBefore || importPrefixMatch lineBefore
    || decoratorMatch lineBefore || fStringBefore lineBefore

/-- The closing-quote search of `strip_docstrings` (src/main.rs lines
549-564) on the text after the opening triple: return the number of
characters up to and including the closing run of exactly three `q`s
(a position followed by a fourth `q` is skipped by one and retried);
`none` when no closing triple exists. -/
def findClosing (q : Char) : Chars → Option Nat
  | a :: b :: c :: t =>
    if a = q && b = q && c = q && !(t.head? = some q) then some 3
    else (findClosing q (b :: c :: t)).map (· + 1)
  | _ => none

/-- One pass of the byte scan of `strip_docstrings` (src/main.rs lines
532-601), written over the remaining characters with the already
scanned text kept (reversed) for the `line_before` lookback; the fuel
argument decreases on every step and `content.length` fuel suffices.
Characters outside omitted docstring regions are emitted as scanned
(the source's deferred `content[last_pos..start_pos]` copies emit
exactly these characters). -/
def sdGo : Nat → Chars → Chars → Chars
  | 0, _, rest => rest
  | fuel + 1, before, rest =>
    match rest with
    | q1 :: q2 :: q3 :: t =>
      if (q1 = '"' && q2 = '"' && q3 = '"') || (q1 = '\'' && q2 = '\'' && q3 = '\'') then
        if t.head? = some q1 then
          -- 4+ quotes in a row: skip one character and retry
          q1 :: sdGo fuel (q1 :: before) (q2 :: q3 :: t)
        else
          match findClosing q1 t with
          | none =>
            -- unterminated: treat as ordinary text
            q1 :: sdGo fuel (q1 :: before) (q2 :: q3 :: t)
          | some cLen =>
            if shouldPreserve ((before.takeWhile (fun c => c ≠ '\n')).reverse) then
              (q1 :: q2 :: q3 :: t.take cLen)
                ++ sdGo fuel ((q1 :: q2 :: q3 :: t.take cLen).reverse ++ before) (t.drop cLen)
            else
              sdGo fuel ((q1 :: q2 :: q3 :: t.take cLen).reverse ++ before) (t.drop cLen)
      else q1 :: sdGo fuel (q1 :: before) (q2 :: q3 :: t)
    | c :: t => c :: sdGo fuel (c :: before) t
    | [] => []

/-- Embedding of `strip_docstrings` (src/main.rs lines 520-607). -/
def stripDocstrings (content : Chars) : Chars := sdGo content.length [] content

/-- Spec-side description of a closing triple-quote site: at offset `p`
of the text after the opener stand three `q`s not followed by a fourth. -/
def closingAt (q : Char) (t : Chars) (p : Nat) : Prop :=
  p + 3 ≤ t.length ∧ (t.drop p).take 3 = [q, q, q] ∧ (t.drop (p + 3)).head? ≠ some q

instance (q : Char) (t : Chars) (p : Nat) : Decidable (closingAt q t p) := by
  unfold closingAt
  infer_instance

theorem closingAt_zero_iff (q a b c : Char) (t : Chars) :
    (a = q && b = q && c = q && !(t.head? = some q)) = true
      ↔ closingAt q (a :: b :: c :: t) 0 := by
  simp only [closingAt, Bool.and_eq_true, decide_eq_true_eq, Bool.not_eq_true',
    decide_eq_false_iff_not]
  constructor
  · rintro ⟨⟨⟨h1, h2⟩, h3⟩, h4⟩
    subst h1 h2 h3
    simpa using h4
  · rintro ⟨_, h2, h3⟩
    simp only [List.drop_zero, List.take_cons] at h2
    simp at h2
    obtain ⟨h1, h2a, h2b⟩ := h2
    subst h1 h2a h2b
    simpa using h3

theorem closingAt_succ_iff (q a : Char) (rest : Chars) (p : Nat) :
    closingAt q (a :: rest) (p + 1) ↔ closingAt q rest p := by
  simp only [closingAt, List.length_cons, List.drop_succ_cons]
  constructor
  · rintro ⟨h1, h2, h3⟩
    exact ⟨by omega, h2, h3⟩
  · rintro ⟨h1, h2, h3⟩
    exact ⟨by omega, h2, h3⟩

theorem findClosing_iff (q : Char) :
    ∀ (t : Chars) (n : Nat),
      findClosing q t = some n
        ↔ ∃ p, n = p + 3 ∧ closingAt q t p ∧ ∀ p2 < p, ¬ closingAt q t p2 := by
  intro t
  induction t with
  | nil =>
    intro n
    simp only [findClosing]
    constructor
    · intro h; simp at h
    · rintro ⟨p, _, ⟨hb, _⟩, _⟩
      simp at hb
  | cons a rest ih =>
    intro n
    match rest with
    | [] =>
      simp only [findClosing]
      constructor
      · intro h; simp at h
      · rintro ⟨p, _, ⟨hb, _⟩, _⟩
        simp at hb
    | [b] =>
      simp only [findClosing]
      constructor
      · intro h; simp at h
      · rintro ⟨p, _, ⟨hb, _⟩, _⟩
        simp at hb
    | b :: c :: t2 =>
      rw [findClosing]
      by_cases h0 : (a = q && b = q && c = q && !(t2.head? = some q)) = true
      · rw [if_pos h0]
        have hc0 : closingAt q (a :: b :: c :: t2) 0 := (closingAt_zero_iff q a b c t2).mp h0
        constructor
        · intro h
          simp only [Option.some_inj] at h
          exact ⟨0, by omega, hc0, by omega⟩
        · rintro ⟨p, hn, hcp, hmin⟩
          cases p with
          | zero => simp [hn]
          | succ p2 => exact absurd hc0 (hmin 0 (by omega))
      · rw [if_neg h0]
        have hnc0 : ¬ closingAt q (a :: b :: c :: t2) 0 :=
          fun hc => h0 ((closingAt_zero_iff q a b c t2).mpr hc)
        constructor
        · intro h
          rcases Option.map_eq_some'.mp h with ⟨m, hm, hn⟩
          rcases (ih m).mp hm with ⟨p, hmp, hcp, hmin⟩
          refine ⟨p + 1, by omega, (closingAt_succ_iff q a _ p).mpr hcp, ?_⟩
          intro p2 hp2
          cases p2 with
          | zero => exact hnc0
          | succ p3 =>
            intro hc
            exact hmin p3 (by omega) ((closingAt_succ_iff q a _ p3).mp hc)
        · rintro ⟨p, hn, hcp, hmin⟩
          cases p with
          | zero => exact absurd hcp hnc0
          | succ p2 =>
            apply Option.map_eq_some'.mpr
            refine ⟨n - 1, ?_, by omega⟩
            apply (ih (n - 1)).mpr
            refine ⟨p2, by omega, (closingAt_succ_iff q a _ p2).mp hcp, ?_⟩
            intro p3 hp3
            intro hc
            exact hmin (p3 + 1) (by omega) ((closingAt_succ_iff q a _ p3).mpr hc)

/-- C7 (amended): `strip_docstrings` treats three identical quote
characters followed by a fourth identical quote not as a delimiter but
skips one character and retries (so the trailing three quotes of a
longer run can still open a delimiter); the closing-search finds
exactly the first position after the opener holding three identical
quotes not followed by a fourth; a delimited region is omitted from the
output if and only if the text on the same line immediately preceding
it matches none of: an assignment `name(.name)* =`, an import
statement, a decorator line, or an f-string prefix — preserved regions
are kept verbatim; and an opener with no closing triple is copied
through verbatim rather than causing an error. -/
theorem C7_strip_docstrings :
    (∀ (q : Char) (t : Chars) (n : Nat),
      findClosing q t = some n
        ↔ ∃ p, n = p + 3 ∧ closingAt q t p ∧ ∀ p2 < p, ¬ closingAt q t p2)
    ∧ (∀ (fuel : Nat) (before : Chars) (q : Char) (t : Chars) (p : Nat),
        (q = '"' ∨ q = '\'') →
        t.head? ≠ some q →
        closingAt q t p → (∀ p2 < p, ¬ closingAt q t p2) →
        sdGo (fuel + 1) before (q :: q :: q :: t)
          = (if shouldPreserve ((before.takeWhile (fun c => c ≠ '\n')).reverse) then
              q :: q :: q :: t.take (p + 3)
            else [])
            ++ sdGo fuel ((q :: q :: q :: t.take (p + 3)).reverse ++ before)
                (t.drop (p + 3)))
    ∧ (∀ (fuel : Nat) (before : Chars) (q : Char) (t : Chars),
        (q = '"' ∨ q = '\'') →
        t.head? = some q →
        sdGo (fuel + 1) before (q :: q :: q :: t)
          = q :: sdGo fuel (q :: before) (q :: q :: t))
    ∧ (∀ (fuel : Nat) (before : Chars) (q : Char) (t : Chars),
        (q = '"' ∨ q = '\'') →
        t.head? ≠ some q →
        findClosing q t = none →
        sdGo (fuel + 1) before (q :: q :: q :: t)
          = q :: sdGo fuel (q :: before) (q :: q :: t)) := by
  have htriple : ∀ q : Char, (q = '"' ∨ q = '\'') →
      ((q = '"' && q = '"' && q = '"') || (q = '\'' && q = '\'' && q = '\'')) = true := by
    rintro q (rfl | rfl) <;> decide
  refine ⟨findClosing_iff, ?_, ?_, ?_⟩
  · intro fuel before q t p hq h4 hcp hmin
    have hfc : findClosing q t = some (p + 3) :=
      (findClosing_iff q t (p + 3)).mpr ⟨p, rfl, hcp, hmin⟩
    rw [sdGo]
    simp only [htriple q hq, if_true, if_neg h4, hfc]
    split <;> simp
  · intro fuel before q t hq h4
    rw [sdGo]
    simp only [htriple q hq, if_true, if_pos h4]
  · intro fuel before q t hq h4 hfc
    rw [sdGo]
    simp only [htriple q hq, if_true, if_neg h4, hfc]

/-- C7 counterexample: on `""""a""""` — whose quote runs have length
four — the claim (four or more in a row is not a delimiter, hence no
delimiter exists here) predicts the input passes through unchanged; the
code instead skips one quote, takes the next three as an opener,
removes the delimited region as a docstring, and outputs a single
quote character. -/
theorem C7_counterexample :
    stripDocstrings (str "\"\"\"\"a\"\"\"\"") = str "\"" ∧
    str "\"" ≠ str "\"\"\"\"a\"\"\"\"" := by decide

/-- C7 witness: the region step applied to the module docstring
`"""d"""` at the start of a file: nothing on the line before it, so the
region is omitted. -/
theorem C7_witness :
    sdGo 10 [] (str "\"\"\"d\"\"\"\nx")
      = (if shouldPreserve ((([] : Chars).takeWhile (fun c => c ≠ '\n')).reverse) then
          '"' :: '"' :: '"' :: (str "d\"\"\"\nx").take (1 + 3)
        else [])
        ++ sdGo 9 (('"' :: '"' :: '"' :: (str "d\"\"\"\nx").take (1 + 3)).reverse ++ [])
            ((str "d\"\"\"\nx").drop (1 + 3)) :=
  C7_strip_docstrings.2.1 9 [] '"' (str "d\"\"\"\nx") 1 (Or.inl rfl)
    (by decide) (by decide)
    (by intro p2 hp2; interval_cases p2 <;> simp [closingAt] <;> decide)

/-- The single/double-quote state update of the `strip_comments` line
scanner (src/main.rs lines 695-702): toggles only when no multi-line
string is open. -/
def updSingle (inStr inML : Option Char) (ch : Char) : Option Char :=
  if inML = none then
    if inStr = none then some ch
    else if inStr = some ch then none
    else inStr
  else inStr

/-- The per-line character scan of `strip_comments` (src/main.rs lines
662-708): walk the line tracking the string state; a quote character
peeks at the next one or two characters, consuming a whole triple (or a
quote pair, which falls through to the single-quote toggle) while the
position counter `i` advances by one per loop iteration only — exactly
the source's behaviour, whose `i` is advanced only for the character
taken by the outer loop.  Returns the computed comment position (the
counter value at the `'#'` found outside any tracked string) and the
carried-over multi-line string state. -/
def scanLineGo : Nat → Option Char → Option Char → Nat → Chars → Option Nat × Option Char
  | 0, _, inML, _, _ => (none, inML)
  | _, _, inML, _, [] => (none, inML)
  | fuel + 1, inStr, inML, i, ch :: rest =>
    if ch = '"' || ch = '\'' then
      match rest with
      | next1 :: rest2 =>
        if next1 = ch then
          match rest2 with
          | next2 :: rest3 =>
            if next2 = ch then
              if inStr = some ch then scanLineGo fuel none none (i + 1) rest3
              else if inStr = none then scanLineGo fuel (some ch) (some ch) (i + 1) rest3
              else scanLineGo fuel inStr inML (i + 1) rest3
            else scanLineGo fuel (updSingle inStr inML ch) inML (i + 1) rest2
          | [] => scanLineGo fuel (updSingle inStr inML ch) inML (i + 1) rest2
        else scanLineGo fuel (updSingle inStr inML ch) inML (i + 1) rest
      | [] => scanLineGo fuel (updSingle inStr inML ch) inML (i + 1) []
    else if ch = '#' && inStr = none then (some i, inML)
    else scanLineGo fuel inStr inML (i + 1) rest

/-- Run the line scanner with sufficient fuel (one unit per loop
iteration; each iteration consumes at least one character). -/
def scanLine (inML : Option Char) (line : Chars) : Option Nat × Option Char :=
  scanLineGo line.length inML inML 0 line

/-- The line loop of `strip_comments` (src/main.rs lines 618-734): the
shebang line (line 0 only) and metadata blocks are preserved verbatim;
otherwise the line scanner decides: a line whose text before the
computed comment position is blank is dropped entirely, a line with an
inline comment keeps the end-trimmed text before the computed position,
a blank line with no comment is dropped, and any other line is kept
verbatim; a newline separates a kept line from whatever follows exactly
when more input lines remain. -/
def scLoop : Bool → Option Char → Nat → List Chars → Chars
  | _, _, _, [] => []
  | inPep, inML, n, line :: rest =>
    let sep : Chars := if rest.isEmpty then [] else ['\n']
    let trimmed := trimStartC line
    if n = 0 && isShebang trimmed then
      line ++ sep ++ scLoop inPep inML (n + 1) rest
    else if pep723Start trimmed && inPep
        && (trimmed = str "# ///" || trimmed = str "#///") then
      line ++ sep ++ scLoop false inML (n + 1) rest
    else if pep723Start trimmed && !inPep then
      line ++ sep ++ scLoop true inML (n + 1) rest
    else if inPep then
      line ++ sep ++ scLoop inPep inML (n + 1) rest
    else
      match scanLine inML line with
      | (some pos, inML2) =>
        if (trimC (line.take pos)).isEmpty then scLoop inPep inML2 (n + 1) rest
        else if (trimEndC (line.take pos)).isEmpty then scLoop inPep inML2 (n + 1) rest
        else trimEndC (line.take pos) ++ sep ++ scLoop inPep inML2 (n + 1) rest
      | (none, inML2) =>
        if (trimC line).isEmpty then scLoop inPep inML2 (n + 1) rest
        else line ++ sep ++ scLoop inPep inML2 (n + 1) rest

/-- Embedding of `strip_comments` (src/main.rs lines 609-742). -/
def stripComments (content : Chars) : Chars :=
  scLoop false none 0 (rustLines content)
    ++ (if content.getLast? = some '\n' then ['\n'] else [])

/-- Per-line specification of the comment stripper for a line scanned
outside any string: the first `'#'` of the line (if any) cuts it, the
portion before the cut is end-trimmed, and a line whose remaining text
is blank — a comment-only line, or a blank line with no comment at all —
is dropped (`none`); a nonblank line with no `'#'` is kept verbatim. -/
def stripSpecLine (line : Chars) : Option Chars :=
  match line.findIdx? (fun c => c = '#') with
  | some pos =>
    if (trimC (line.take pos)).isEmpty then none
    else if (trimEndC (line.take pos)).isEmpty then none
    else some (trimEndC (line.take pos))
  | none => if (trimC line).isEmpty then none else some line

/-- Specification of the line loop on quote-free, directive-free input:
each kept line is emitted followed by a newline exactly when further
input lines remain (even when all of those are subsequently dropped). -/
def scSpec : List Chars → Chars
  | [] => []
  | line :: rest =>
    (match stripSpecLine line with
     | some t => t ++ (if rest.isEmpty then [] else ['\n'])
     | none => []) ++ scSpec rest

section CommentLemmas

theorem scanLineGo_no_quotes :
    ∀ (fuel : Nat) (line : Chars) (i : Nat), line.length ≤ fuel →
      '"' ∉ line → '\'' ∉ line →
      scanLineGo fuel none none i line
        = ((line.findIdx? (fun c => c = '#')).map (· + i), none) := by
  intro fuel
  induction fuel with
  | zero =>
    intro line i hlen _ _
    have : line = [] := List.eq_nil_of_length_eq_zero (by omega)
    subst this
    simp [scanLineGo, List.findIdx?]
  | succ fuel ih =>
    intro line i hlen hdq hsq
    cases line with
    | nil => simp [scanLineGo, List.findIdx?]
    | cons ch rest =>
      have hchd : ch ≠ '"' := fun h => hdq (h ▸ List.mem_cons_self ch rest)
      have hchs : ch ≠ '\'' := fun h => hsq (h ▸ List.mem_cons_self ch rest)
      have hq : (ch = '"' || ch = '\'') = false := by
        simp [hchd, hchs]
      rw [scanLineGo.eq_def]
      simp only [hq, Bool.false_eq_true, if_false]
      by_cases hh : ch = '#'
      · subst hh
        simp [List.findIdx?_cons]
      · have : (ch = '#' && none (α := Char) = none) = false := by simp [hh]
        rw [if_neg (by simp [hh])]
        rw [ih rest (i + 1) (by
          have h2 : rest.length + 1 ≤ fuel + 1 := by simpa using hlen
          omega)
          (fun h => hdq (List.mem_cons_of_mem ch h))
          (fun h => hsq (List.mem_cons_of_mem ch h))]
        rw [List.findIdx?_cons, if_neg (by simp [hh]), List.findIdx?_succ]
        cases List.findIdx? (fun c => c = '#') rest with
        | none => rfl
        | some k =>
          simp only [Option.map_some', Prod.mk.injEq, Option.some_inj]
          exact ⟨by omega, trivial⟩

theorem scanLineGo_inside_multiline :
    ∀ (fuel : Nat) (q : Char) (line : Chars) (i : Nat),
      q ∉ line →
      scanLineGo fuel (some q) (some q) i line = (none, some q) := by
  intro fuel
  induction fuel with
  | zero => intro q line i _; cases line <;> rfl
  | succ fuel ih =>
    intro q line i hq
    cases line with
    | nil => rfl
    | cons ch rest =>
      have hchq : ch ≠ q := fun h => hq (h ▸ List.mem_cons_self ch rest)
      have hrest : q ∉ rest := fun h => hq (List.mem_cons_of_mem ch h)
      rw [scanLineGo.eq_def]
      dsimp only
      have hupd : updSingle (some q) (some q) ch = some q := by
        simp [updSingle]
      by_cases hc : (ch = '"' || ch = '\'') = true
      · rw [if_pos hc]
        cases rest with
        | nil =>
          dsimp only
          rw [hupd]
          exact ih q [] (i + 1) (by simp)
        | cons next1 rest2 =>
          dsimp only
          by_cases h1 : next1 = ch
          · rw [if_pos h1]
            cases rest2 with
            | nil =>
              dsimp only
              rw [hupd]
              exact ih q [] (i + 1) (by simp)
            | cons next2 rest3 =>
              dsimp only
              by_cases h2 : next2 = ch
              · rw [if_pos h2]
                have hne1 : ¬ ((some q : Option Char) = some ch) := by
                  simp
                  exact fun h => hchq h.symm
                rw [if_neg hne1, if_neg (by simp)]
                exact ih q rest3 (i + 1)
                  (fun h => hrest (List.mem_cons_of_mem next1
                    (List.mem_cons_of_mem next2 h)))
              · rw [if_neg h2, hupd]
                exact ih q (next2 :: rest3) (i + 1)
                  (fun h => hrest (List.mem_cons_of_mem next1 h))
          · rw [if_neg h1, hupd]
            exact ih q (next1 :: rest2) (i + 1) hrest
      · rw [if_neg hc]
        rw [if_neg (by simp)]
        exact ih q rest (i + 1) hrest

theorem scLoop_eq_scSpec :
    ∀ (lines : List Chars) (n : Nat),
      (∀ line ∈ lines, '"' ∉ line ∧ '\'' ∉ line ∧
        isShebang (trimStartC line) = false ∧
        pep723Start (trimStartC line) = false) →
      scLoop false none n lines = scSpec lines := by
  intro lines
  induction lines with
  | nil => intro n _; rfl
  | cons line rest ih =>
    intro n h
    obtain ⟨hdq, hsq, hsh, hpep⟩ := h line (List.mem_cons_self _ _)
    have hrest : ∀ l ∈ rest, '"' ∉ l ∧ '\'' ∉ l ∧
        isShebang (trimStartC l) = false ∧
        pep723Start (trimStartC l) = false :=
      fun l hl => h l (List.mem_cons_of_mem _ hl)
    have hscan : scanLine none line
        = (line.findIdx? (fun c => c = '#'), none) := by
      have hg := scanLineGo_no_quotes line.length line 0 le_rfl hdq hsq
      simpa [scanLine] using hg
    rw [scLoop.eq_def]
    dsimp only
    rw [if_neg (by simp [hsh]), if_neg (by simp [hpep]),
      if_neg (by simp [hpep]), if_neg (by simp)]
    rw [hscan, scSpec, stripSpecLine]
    cases hf : line.findIdx? (fun c => c = '#') with
    | some pos =>
      dsimp only
      by_cases h1 : (trimC (line.take pos)).isEmpty
      · simp [h1, ih (n + 1) hrest]
      · by_cases h2 : (trimEndC (line.take pos)).isEmpty
        · simp [h1, h2, ih (n + 1) hrest]
        · simp [h1, h2, ih (n + 1) hrest]
    | none =>
      dsimp only
      by_cases h1 : (trimC line).isEmpty
      · simp [h1, ih (n + 1) hrest]
      · simp [h1, ih (n + 1) hrest]

end CommentLemmas

/-- **C6** (amended).  The per-line behaviour of `strip_comments`
(src/main.rs lines 609-742), corrected on three points. (1) On input
whose lines contain no quote characters and are neither shebang nor
metadata-directive lines, the stripper equals the per-line
specification: the first `'#'` of a line cuts it, the text before the
cut is kept end-trimmed, a comment-only line is dropped, **and a blank
line with no comment at all is dropped as well** (the claim's "a line
with no comment is kept verbatim" fails for blank lines); each kept
line is followed by a newline exactly when further input lines remain,
and a final `'\n'` is appended exactly when the input ends with one
(so a trailing newline is preserved, but can also be *gained* when the
input does not end with one and lines were dropped after the last kept
line).  (2) On a quote-free line the scanner's reported cut position is
the true index of the first `'#'` — but the position counter advances
only once per loop iteration while quote pairs and triples consume two
or three characters, so on a line *with* quotes before the comment the
counter undercounts and the kept portion is truncated short of the real
comment marker (see the counterexample). (3) A line lying entirely
inside a still-open triple-quoted string (not containing the delimiter
quote) is never cut at an embedded `'#'` and leaves the string state
open, as the claim says. -/
theorem C6_strip_comments :
    (∀ (content : Chars),
      (∀ line ∈ rustLines content, '"' ∉ line ∧ '\'' ∉ line ∧
        isShebang (trimStartC line) = false ∧
        pep723Start (trimStartC line) = false) →
      stripComments content
        = scSpec (rustLines content)
          ++ (if content.getLast? = some '\n' then ['\n'] else []))
    ∧ (∀ (line : Chars), '"' ∉ line → '\'' ∉ line →
        scanLine none line = (line.findIdx? (fun c => c = '#'), none))
    ∧ (∀ (q : Char) (line : Chars), q ∉ line →
        scanLine (some q) line = (none, some q)) := by
  refine ⟨?_, ?_, ?_⟩
  · intro content h
    rw [stripComments, scLoop_eq_scSpec (rustLines content) 0 h]
  · intro line hdq hsq
    have hg := scanLineGo_no_quotes line.length line 0 le_rfl hdq hsq
    simpa [scanLine] using hg
  · intro q line hq
    exact scanLineGo_inside_multiline line.length q line 0 hq

/-- C6 counterexample: three per-line behaviours contradict the claim.
First, the undercounting position counter truncates a line inside a
completed triple-quoted string: `x = \x22\x22\x22a\x22\x22\x22 # c`
should keep `x = \x22\x22\x22a\x22\x22\x22` (the comment starts after
the string) but keeps only `x = \x22\x22\x22a` — the string itself is
cut.  Second, a blank line is not kept verbatim: it is dropped.  Third,
the presence of a final trailing newline is not preserved: input ending
without one can gain one when a later comment-only line is dropped. -/
theorem C6_counterexample :
    (stripComments (str "x = \"\"\"a\"\"\" # c\n") = str "x = \"\"\"a\n" ∧
      stripComments (str "x = \"\"\"a\"\"\" # c\n") ≠ str "x = \"\"\"a\"\"\"\n") ∧
    stripComments (str "x = 1\n\ny = 2\n") = str "x = 1\ny = 2\n" ∧
    stripComments (str "x = 1\n# c") = str "x = 1\n" := by
  refine ⟨⟨by decide, by decide⟩, by decide, by decide⟩

/-- C6 witness: the amended per-line description evaluated on a
concrete quote-free input with an inline comment, a blank line and a
plain line. -/
theorem C6_witness :
    stripComments (str "x = 1 # c\n  \ny\n") = str "x = 1\ny\n" :=
  (C6_strip_comments.1 (str "x = 1 # c\n  \ny\n") (by decide)).trans (by decide)

/-- C3 counterexample: the claim states that every blank line of the
inlined content remains blank with no indentation added.  The inlined
content `"  \n"` has a single blank (whitespace-only, nonempty) line
`"  "`; inlining it at an import site indented by four spaces produces
the line `"      "`, i.e. the four-space indentation has been prepended
to the blank line, contradicting the claim. -/
theorem C3_counterexample :
    rustLines (reindent (str "    ") (str "  \n")) = [str "      "] ∧
      str "      " ≠ str "  " := by decide

end PyInliner
